import Mathlib

/-
Shallow embedding of the partition-filter grammar of deltactl
(src/parse.rs), built on nom-style parsers.  Parsers operate on
lists of characters and return the matched value together with the
remaining input, a recoverable mismatch, or an unrecoverable failure
(nom's Failure, produced by the cut combinator inside recognize_float).
-/

namespace Deltactl

/-- Result of a nom-style parser: success with a value and the remaining
input, a recoverable mismatch (nom Error), or an unrecoverable failure
(nom Failure). -/
inductive PRes (α : Type) where
  | ok (val : α) (rest : List Char)
  | err
  | fail
deriving DecidableEq, Repr

/-- A parser consumes a prefix of the input character list. -/
def P (α : Type) : Type := List Char → PRes α

/-- Chars accepted by nom space0: space and tab. -/
def isSpaceTab (c : Char) : Bool := c = ' ' || c = '\t'

/-- nom space0: zero or more spaces/tabs. -/
def space0 : P (List Char) := fun cs =>
  .ok (cs.takeWhile isSpaceTab) (cs.dropWhile isSpaceTab)

/-- nom tag: match an exact character sequence. -/
def tag (t : List Char) : P (List Char) := fun cs =>
  if cs.take t.length = t then .ok (cs.take t.length) (cs.drop t.length) else .err

/-- nom tag_no_case: match a character sequence ignoring ASCII case, returning
the slice of the input (original casing preserved).  Char.toLower only maps
the ASCII range, which is exact for the patterns used here (in, not in). -/
def tagNoCase (t : List Char) : P (List Char) := fun cs =>
  if (cs.take t.length).map Char.toLower = t.map Char.toLower then
    .ok (cs.take t.length) (cs.drop t.length)
  else .err

/-- Take one or more characters satisfying the predicate (basis of nom's
alpha1, alphanumeric1, digit1). -/
def takeWhile1 (p : Char → Bool) : P (List Char) := fun cs =>
  let m := cs.takeWhile p
  if m.isEmpty then .err else .ok m (cs.dropWhile p)

/-- nom alpha1: one or more ASCII letters. -/
def alpha1 : P (List Char) := takeWhile1 Char.isAlpha

/-- nom alphanumeric1: one or more ASCII letters or digits. -/
def alphanumeric1 : P (List Char) := takeWhile1 Char.isAlphanum

/-- nom digit1: one or more ASCII digits. -/
def digit1 : P (List Char) := takeWhile1 Char.isDigit

/-- nom char: match a single given character. -/
def pChar (c : Char) : P Char := fun cs =>
  match cs with
  | x :: rest => if x = c then .ok c rest else .err
  | [] => .err

/-- nom one_of: match one character from a set. -/
def oneOf (s : List Char) : P Char := fun cs =>
  match cs with
  | c :: rest => if c ∈ s then .ok c rest else .err
  | [] => .err

/-- nom alt of two parsers: second is tried only on a recoverable mismatch. -/
def pAlt {α : Type} (p q : P α) : P α := fun cs =>
  match p cs with
  | .err => q cs
  | r => r

/-- nom opt: turn a mismatch into success without consuming input. -/
def pOpt {α : Type} (p : P α) : P (Option α) := fun cs =>
  match p cs with
  | .ok v r => .ok (some v) r
  | .err => .ok none cs
  | .fail => .fail

/-- nom cut: turn a recoverable mismatch into an unrecoverable failure. -/
def pCut {α : Type} (p : P α) : P α := fun cs =>
  match p cs with
  | .err => .fail
  | r => r

/-- nom map over a parser's value. -/
def pMap {α β : Type} (p : P α) (f : α → β) : P β := fun cs =>
  match p cs with
  | .ok v r => .ok (f v) r
  | .err => .err
  | .fail => .fail

/-- nom pair: run two parsers in sequence. -/
def pPair {α β : Type} (p : P α) (q : P β) : P (α × β) := fun cs =>
  match p cs with
  | .ok a r =>
    match q r with
    | .ok b r2 => .ok (a, b) r2
    | .err => .err
    | .fail => .fail
  | .err => .err
  | .fail => .fail

/-- nom preceded: run both parsers, keep the second value. -/
def pPreceded {α β : Type} (p : P α) (q : P β) : P β := fun cs =>
  match p cs with
  | .ok _ r => q r
  | .err => .err
  | .fail => .fail

/-- nom terminated: run both parsers, keep the first value. -/
def pTerminated {α β : Type} (p : P α) (q : P β) : P α := fun cs =>
  match p cs with
  | .ok v r =>
    match q r with
    | .ok _ r2 => .ok v r2
    | .err => .err
    | .fail => .fail
  | .err => .err
  | .fail => .fail

/-- nom delimited: run three parsers, keep the middle value. -/
def pDelimited {α β γ : Type} (a : P α) (b : P β) (c : P γ) : P β := fun cs =>
  match a cs with
  | .ok _ r1 =>
    match b r1 with
    | .ok v r2 =>
      match c r2 with
      | .ok _ r3 => .ok v r3
      | .err => .err
      | .fail => .fail
    | .err => .err
    | .fail => .fail
  | .err => .err
  | .fail => .fail

/-- nom recognize: return the consumed slice of the input instead of the
inner value (nom computes it from the offset of the remaining input). -/
def pRecognize {α : Type} (p : P α) : P (List Char) := fun cs =>
  match p cs with
  | .ok _ r => .ok (cs.take (cs.length - r.length)) r
  | .err => .err
  | .fail => .fail

/-- Fuelled body of nom many0_count.  nom stops at the first mismatch and
rejects an iteration that consumes no input (infinite-loop guard); fuel is
instantiated with the input length, which the progress condition makes
sufficient. -/
def pMany0CountF {α : Type} (p : P α) : Nat → List Char → PRes Nat
  | 0, cs =>
    (match p cs with
     | .err => .ok 0 cs
     | .fail => .fail
     | .ok _ _ => .err)
  | fuel + 1, cs =>
    (match p cs with
     | .err => .ok 0 cs
     | .fail => .fail
     | .ok _ r =>
       if r.length < cs.length then
         match pMany0CountF p fuel r with
         | .ok n rest => .ok (n + 1) rest
         | .err => .err
         | .fail => .fail
       else .err)

/-- nom many0_count. -/
def pMany0Count {α : Type} (p : P α) : P Nat := fun cs =>
  pMany0CountF p cs.length cs

/-- nom many1_count: at least one match, then as many as possible. -/
def pMany1Count {α : Type} (p : P α) : P Nat := fun cs =>
  match p cs with
  | .err => .err
  | .fail => .fail
  | .ok _ r =>
    if r.length < cs.length then
      match pMany0Count p r with
      | .ok n rest => .ok (n + 1) rest
      | .err => .err
      | .fail => .fail
    else .err

/-! The grammar of src/parse.rs. -/

/-- Alternative list of filter_operator, in source order. -/
def opAlt : P (List Char) :=
  pAlt (tag ['='])
    (pAlt (tag ['!', '='])
      (pAlt (tag ['>', '='])
        (pAlt (tag ['>'])
          (pAlt (tag ['<', '='])
            (pAlt (tag ['<'])
              (pAlt (tagNoCase ['i', 'n'])
                (tagNoCase ['n', 'o', 't', ' ', 'i', 'n'])))))))

/-- filter_operator: the operator alternatives wrapped in space trimming. -/
def filter_operator : P (List Char) :=
  pTerminated (pPreceded space0 opAlt) space0

/-- Inner alternative of column_name's repetition. -/
def identInner : P (List Char) := pAlt alphanumeric1 (tag ['_'])

/-- column_name: recognize(pair(alt((alpha1, tag("_"))), many0_count(alt((alphanumeric1, tag("_")))))). -/
def column_name : P (List Char) :=
  pRecognize (pPair (pAlt alpha1 (tag ['_'])) (pMany0Count identInner))

/-- Sign alternative used by nom recognize_float. -/
def signP : P Char := pAlt (pChar '+') (pChar '-')

/-- Mantissa of nom recognize_float: digits with an optional fraction, or a
leading dot with digits. -/
def floatBody : P Unit :=
  pAlt
    (pMap (pPair digit1 (pOpt (pPair (pChar '.') (pOpt digit1)))) (fun _ => ()))
    (pMap (pPair (pChar '.') digit1) (fun _ => ()))

/-- Exponent of nom recognize_float; the digits are under cut, so a lone
exponent marker is an unrecoverable failure. -/
def floatExp : P Unit :=
  pMap (pPair (pAlt (pChar 'e') (pChar 'E')) (pPair (pOpt signP) (pCut digit1)))
    (fun _ => ())

/-- nom recognize_float: optional sign, mantissa, optional exponent. -/
def recognizeFloat : P (List Char) :=
  pRecognize (pPair (pOpt signP) (pPair floatBody (pOpt floatExp)))

/-- Digit set of the integer branch of filter_field. -/
def digitChars : List Char := String.toList "0123456789"

/-- Inner alternative of the quoted-string branch of filter_field. -/
def quotedElem : P (List Char) :=
  pAlt alphanumeric1 (pAlt (tag ['_']) (pAlt (tag ['-']) (tag ['.'])))

/-- filter_field: float, else digit run, else single-quoted run; the quoted
branch discards the delimiting quotes (delimited). -/
def filter_field : P (List Char) :=
  pAlt recognizeFloat
    (pAlt (pRecognize (pMany1Count (oneOf digitChars)))
      (pDelimited (pChar '\'') (pRecognize (pMany1Count quotedElem)) (pChar '\'')))

/-- Sequenced triple of filter_condition: (preceded(space0, column_name),
preceded(space0, filter_operator), preceded(space0, filter_field)).parse. -/
def parseTriple (input : List Char) : PRes (List Char × List Char × List Char) :=
  match pPreceded space0 column_name input with
  | .ok c r1 =>
    match pPreceded space0 filter_operator r1 with
    | .ok o r2 =>
      match pPreceded space0 filter_field r2 with
      | .ok l r3 => .ok (c, o, l) r3
      | .err => .err
      | .fail => .fail
    | .err => .err
    | .fail => .fail
  | .err => .err
  | .fail => .fail

/-- Message of the single error produced by filter_condition. -/
def errMsg (input : List Char) : List Char :=
  (String.toList "invalid partition filter: ") ++ input

/-- filter_condition: run the triple; any failure is collapsed into one
opaque error repeating the input. -/
def filter_condition (input : List Char) :
    Except (List Char) (List Char × List Char × List Char) :=
  match parseTriple input with
  | .ok v _ => .ok v
  | .err => .error (errMsg input)
  | .fail => .error (errMsg input)

/-! Character-class abbreviations used by the grammar lemmas. -/

/-- Chars matched by the repetition inside column_name. -/
def identChar (c : Char) : Bool := c.isAlphanum || c = '_'

/-- Chars matched inside the quoted-string branch of filter_field. -/
def qcChar (c : Char) : Bool := c.isAlphanum || c = '_' || c = '-' || c = '.'

/-- Condition that a list does not start with a character of the class. -/
def HeadNot (p : Char → Bool) (ys : List Char) : Prop :=
  ∀ c, ys.head? = some c → p c = false

/-- Canonical forms of the eight operator tokens, in source order. -/
def canonOps : List (List Char) :=
  [['='], ['!', '='], ['>', '='], ['>'], ['<', '='], ['<'],
   ['i', 'n'], ['n', 'o', 't', ' ', 'i', 'n']]

/-! Spec-side recognizers (refinement counterparts, written from the words of
the specification, to be compared with the parsers embedded from the source):
the identifier grammar and the three literal shapes of the spec. -/

/-- Spec identifier grammar: a leading ASCII letter or underscore followed by
ASCII letters, digits, or underscores. -/
def isIdentB (cs : List Char) : Bool :=
  match cs with
  | [] => false
  | c :: rest => (c.isAlpha || c = '_') && rest.all identChar

/-- Spec integer literal: one or more ASCII digits, no sign. -/
def isIntLit (cs : List Char) : Bool := !cs.isEmpty && cs.all Char.isDigit

/-- Strip one optional leading sign. -/
def unsign (cs : List Char) : List Char :=
  match cs with
  | c :: tl => if c = '+' || c = '-' then tl else cs
  | [] => []

/-- Spec exponent part: e or E, an optional sign, and one or more digits. -/
def expB (cs : List Char) : Bool :=
  match cs with
  | c :: s :: tl =>
    (c = 'e' || c = 'E') &&
    (if s = '+' || s = '-' then isIntLit tl else isIntLit (s :: tl))
  | _ => false

/-- Tail of a spec float after the integral digits: a required fractional
part and/or an exponent. -/
def floatTailB (cs : List Char) : Bool :=
  match cs with
  | c :: rest =>
    if c = '.' then
      !(rest.takeWhile Char.isDigit).isEmpty &&
      ((rest.dropWhile Char.isDigit).isEmpty ||
        expB (rest.dropWhile Char.isDigit))
    else expB (c :: rest)
  | [] => false

/-- Spec float literal: optional sign, digits, then a fractional part and/or
an exponent (a fractional part or an exponent is required, unlike the
recognizer of the source, which also accepts bare signed digits). -/
def isFloatLit (lit : List Char) : Bool :=
  !((unsign lit).takeWhile Char.isDigit).isEmpty &&
  floatTailB ((unsign lit).dropWhile Char.isDigit)

/-- Spec quoted-string literal: single quotes around one or more characters
from the restricted set. -/
def isQuotedLit (lit : List Char) : Bool :=
  match lit with
  | c :: rest =>
    c = '\'' && (rest.getLast? = some '\'') && !rest.dropLast.isEmpty &&
    rest.dropLast.all qcChar
  | [] => false

/-- Disjunction of the three spec literal shapes. -/
def isSpecLit (lit : List Char) : Bool :=
  isFloatLit lit || isIntLit lit || isQuotedLit lit

/-- Value filter_field returns for a well-shaped literal token: the token
itself, except that a quoted literal loses its delimiting quotes. -/
def litValue (lit : List Char) : List Char :=
  match lit with
  | c :: rest => if c = '\'' then rest.dropLast else c :: rest
  | [] => []

/-- Property that a parser only ever returns a suffix of its input as the
remaining input. -/
def Sfx {α : Type} (p : P α) : Prop :=
  ∀ cs v r, p cs = .ok v r → r.IsSuffix cs

/-- Structured form of the spec exponent part. -/
def ExpShape (ex : List Char) : Prop :=
  ∃ e es eds, (e = 'e' ∨ e = 'E') ∧ (es = [] ∨ es = ['+'] ∨ es = ['-']) ∧
    eds ≠ [] ∧ (∀ c ∈ eds, c.isDigit = true) ∧ ex = e :: es ++ eds

/-- Structured form of what may follow the integral digits of a numeric
literal (empty for a bare integer). -/
def FloatTail (tail : List Char) : Prop :=
  tail = [] ∨ ExpShape tail ∨
  ∃ fs ex, fs ≠ [] ∧ (∀ c ∈ fs, c.isDigit = true) ∧
    (ex = [] ∨ ExpShape ex) ∧ tail = '.' :: fs ++ ex

theorem headNot_nil (p : Char → Bool) : HeadNot p [] := by
  intro c h; cases h

theorem headNot_cons {p : Char → Bool} {c : Char} {ys : List Char}
    (h : p c = false) : HeadNot p (c :: ys) := by
  intro d hd
  simp only [List.head?_cons, Option.some.injEq] at hd
  exact hd ▸ h

/-! List facts about takeWhile and dropWhile on concatenations. -/

theorem takeWhile_append_run {p : Char → Bool} :
    ∀ {xs ys : List Char}, (∀ c ∈ xs, p c = true) → HeadNot p ys →
      (xs ++ ys).takeWhile p = xs ∧ (xs ++ ys).dropWhile p = ys := by
  intro xs
  induction xs with
  | nil =>
    intro ys _ hy
    cases ys with
    | nil => simp [List.takeWhile, List.dropWhile]
    | cons c ys' =>
      have : p c = false := hy c rfl
      simp [List.takeWhile, List.dropWhile, this]
  | cons x xs' ih =>
    intro ys hx hy
    have hpx : p x = true := hx x (by simp)
    have hx' : ∀ c ∈ xs', p c = true := fun c hc => hx c (by simp [hc])
    have := ih hx' hy
    simp [List.takeWhile, List.dropWhile, hpx, this.1, this.2]

theorem dropWhile_append_all {p : Char → Bool} {xs ys : List Char}
    (hx : ∀ c ∈ xs, p c = true) :
    (xs ++ ys).dropWhile p = ys.dropWhile p := by
  induction xs with
  | nil => simp
  | cons x xs' ih =>
    have hpx : p x = true := hx x (by simp)
    have hx' : ∀ c ∈ xs', p c = true := fun c hc => hx c (by simp [hc])
    simp [List.dropWhile, hpx, ih hx']

theorem dropWhile_headNot {p : Char → Bool} {ys : List Char}
    (hy : HeadNot p ys) : ys.dropWhile p = ys := by
  cases ys with
  | nil => rfl
  | cons c ys' => simp [List.dropWhile, hy c rfl]

theorem takeWhile_headNot {p : Char → Bool} {ys : List Char}
    (hy : HeadNot p ys) : ys.takeWhile p = [] := by
  cases ys with
  | nil => rfl
  | cons c ys' => simp [List.takeWhile, hy c rfl]

theorem take_sub_eq : ∀ {cs xs ys : List Char}, cs = xs ++ ys →
    cs.take (cs.length - ys.length) = xs := by
  intro cs xs ys h
  subst h
  have hlen : (xs ++ ys).length - ys.length = xs.length := by
    simp [List.length_append]
  rw [hlen, List.take_left]

theorem takeWhile_all (p : Char → Bool) (cs : List Char) :
    ∀ c ∈ cs.takeWhile p, p c = true := by
  intro c hc
  exact List.mem_takeWhile_imp hc

/-! Run lemmas for the primitive parsers: their exact behaviour on an input
split into a matching part and a remainder. -/

theorem space0_run {ws ys : List Char} (hw : ∀ c ∈ ws, isSpaceTab c = true)
    (hy : HeadNot isSpaceTab ys) : space0 (ws ++ ys) = .ok ws ys := by
  have h := takeWhile_append_run hw hy
  simp [space0, h.1, h.2]

theorem takeWhile1_run {p : Char → Bool} {xs ys : List Char} (hne : xs ≠ [])
    (hx : ∀ c ∈ xs, p c = true) (hy : HeadNot p ys) :
    takeWhile1 p (xs ++ ys) = .ok xs ys := by
  have h := takeWhile_append_run hx hy
  simp [takeWhile1, h.1, h.2, hne]

theorem takeWhile1_err {p : Char → Bool} {cs : List Char}
    (hy : HeadNot p cs) : takeWhile1 p cs = .err := by
  simp [takeWhile1, takeWhile_headNot hy]

theorem tag_run (t rest : List Char) : tag t (t ++ rest) = .ok t rest := by
  simp [tag, List.take_left, List.drop_left]

theorem pChar_run (c : Char) (rest : List Char) :
    pChar c (c :: rest) = .ok c rest := by
  simp [pChar]

theorem pChar_err {x c : Char} (rest : List Char) (h : x ≠ c) :
    pChar c (x :: rest) = .err := by
  simp [pChar, h]

theorem pChar_nil (c : Char) : pChar c [] = .err := rfl

/-! Run lemmas for the repetition combinators over a character class κ.
The inner parser is abstracted by two facts: it mismatches when the head is
outside κ, and on a κ-head it succeeds, consumes at least one character, and
leaves a remainder with the same κ-run tail. -/

theorem many0F_run {α : Type} {p : P α} {κ : Char → Bool}
    (hfail : ∀ cs, HeadNot κ cs → p cs = .err)
    (hok : ∀ c cs', κ c = true → ∃ v r, p (c :: cs') = .ok v r ∧
      (c :: cs').dropWhile κ = r.dropWhile κ ∧ r.length < cs'.length + 1) :
    ∀ fuel cs, cs.length ≤ fuel →
      ∃ n, pMany0CountF p fuel cs = .ok n (cs.dropWhile κ) := by
  intro fuel
  induction fuel with
  | zero =>
    intro cs hlen
    have hnil : cs = [] := List.length_eq_zero.mp (Nat.le_zero.mp hlen)
    subst hnil
    refine ⟨0, ?_⟩
    simp [pMany0CountF, hfail [] (headNot_nil κ)]
  | succ fuel ih =>
    intro cs hlen
    cases cs with
    | nil =>
      refine ⟨0, ?_⟩
      simp [pMany0CountF, hfail [] (headNot_nil κ)]
    | cons c cs' =>
      by_cases hc : κ c = true
      · obtain ⟨v, r, heq, hdrop, hlt⟩ := hok c cs' hc
        have hrlen : r.length ≤ fuel := by
          have : r.length < fuel + 1 := Nat.lt_of_lt_of_le hlt hlen
          omega
        obtain ⟨n, hrec⟩ := ih r hrlen
        refine ⟨n + 1, ?_⟩
        simp only [pMany0CountF, heq]
        have hcond : r.length < (c :: cs').length := by
          simp [List.length_cons]; omega
        rw [if_pos hcond, hrec]
        simp [hdrop]
      · have hcfalse : κ c = false := by
          cases h : κ c with
          | false => rfl
          | true => exact absurd h hc
        have herr := hfail (c :: cs') (headNot_cons hcfalse)
        refine ⟨0, ?_⟩
        simp [pMany0CountF, herr, List.dropWhile, hcfalse]

theorem many1_run {α : Type} {p : P α} {κ : Char → Bool} {c : Char}
    {cs' : List Char}
    (hfail : ∀ cs, HeadNot κ cs → p cs = .err)
    (hok : ∀ c cs', κ c = true → ∃ v r, p (c :: cs') = .ok v r ∧
      (c :: cs').dropWhile κ = r.dropWhile κ ∧ r.length < cs'.length + 1)
    (hc : κ c = true) :
    ∃ n, pMany1Count p (c :: cs') = .ok n ((c :: cs').dropWhile κ) := by
  obtain ⟨v, r, heq, hdrop, hlt⟩ := hok c cs' hc
  have hrlen : r.length ≤ r.length := Nat.le_refl _
  obtain ⟨n, hrec⟩ := many0F_run hfail hok r.length r hrlen
  refine ⟨n + 1, ?_⟩
  have hcond : r.length < (c :: cs').length := by
    simp [List.length_cons]; omega
  simp only [pMany1Count, heq]
  rw [if_pos hcond]
  simp only [pMany0Count]
  rw [hrec]
  simp [hdrop]

theorem many1_err {α : Type} {p : P α} {κ : Char → Bool} {cs : List Char}
    (hfail : ∀ cs, HeadNot κ cs → p cs = .err)
    (hhd : HeadNot κ cs) : pMany1Count p cs = .err := by
  simp [pMany1Count, hfail cs hhd]

/-! Behaviour of the two concrete inner alternatives and of oneOf. -/

theorem identInner_err (cs : List Char) (h : HeadNot identChar cs) :
    identInner cs = .err := by
  cases cs with
  | nil => rfl
  | cons c cs' =>
    have hc : identChar c = false := h c rfl
    have halnum : c.isAlphanum = false := by
      cases halnum : c.isAlphanum with
      | false => rfl
      | true => simp [identChar, halnum] at hc
    have hund : (c = '_') = False := by
      cases hu : decide (c = '_') with
      | false => simpa using of_decide_eq_false hu
      | true =>
        have := of_decide_eq_true hu
        simp [identChar, this, halnum] at hc
    have h1 : alphanumeric1 (c :: cs') = .err :=
      takeWhile1_err (headNot_cons halnum)
    have h2 : tag ['_'] (c :: cs') = .err := by
      simp [tag, List.take, hund]
    simp [identInner, pAlt, h1, h2]

theorem identInner_ok (c : Char) (cs' : List Char) (hc : identChar c = true) :
    ∃ v r, identInner (c :: cs') = .ok v r ∧
      (c :: cs').dropWhile identChar = r.dropWhile identChar ∧
      r.length < cs'.length + 1 := by
  by_cases halnum : c.isAlphanum = true
  · set xs := (c :: cs').takeWhile Char.isAlphanum with hxs
    set r := (c :: cs').dropWhile Char.isAlphanum with hr
    have hsplit : c :: cs' = xs ++ r :=
      (List.takeWhile_append_dropWhile (p := Char.isAlphanum) (l := c :: cs')).symm
    have hxs_ne : xs ≠ [] := by
      simp [hxs, List.takeWhile, halnum]
    have h1 : alphanumeric1 (c :: cs') = .ok xs r := by
      simp [alphanumeric1, takeWhile1, hxs.symm, hr.symm, hxs_ne]
    refine ⟨xs, r, ?_, ?_, ?_⟩
    · simp [identInner, pAlt, h1]
    · have hall : ∀ x ∈ xs, identChar x = true := by
        intro x hx
        have := takeWhile_all Char.isAlphanum (c :: cs') x hx
        simp [identChar, this]
      calc (c :: cs').dropWhile identChar
          = (xs ++ r).dropWhile identChar := by rw [← hsplit]
        _ = r.dropWhile identChar := dropWhile_append_all hall
    · have : (c :: cs').length = xs.length + r.length := by
        rw [hsplit, List.length_append]
      have hxlen : 1 ≤ xs.length := List.length_pos.mpr hxs_ne
      simp [List.length_cons] at this
      omega
  · have hund : c = '_' := by
      have halnum' : c.isAlphanum = false := by
        cases h : c.isAlphanum with
        | false => rfl
        | true => exact absurd h halnum
      cases hu : decide (c = '_') with
      | true => exact of_decide_eq_true hu
      | false =>
        have := of_decide_eq_false hu
        simp [identChar, halnum', this] at hc
    subst hund
    have h1 : alphanumeric1 ('_' :: cs') = .err := by
      apply takeWhile1_err
      apply headNot_cons
      decide
    have h2 : tag ['_'] ('_' :: cs') = .ok ['_'] cs' := by
      simpa using tag_run ['_'] cs'
    refine ⟨['_'], cs', ?_, ?_, ?_⟩
    · simp [identInner, pAlt, h1, h2]
    · have h5 : identChar '_' = true := by decide
      simp [List.dropWhile, h5]
    · omega

theorem quotedElem_err (cs : List Char) (h : HeadNot qcChar cs) :
    quotedElem cs = .err := by
  cases cs with
  | nil => rfl
  | cons c cs' =>
    have hc : qcChar c = false := h c rfl
    have halnum : c.isAlphanum = false := by
      cases halnum : c.isAlphanum with
      | false => rfl
      | true => simp [qcChar, halnum] at hc
    have h1 : alphanumeric1 (c :: cs') = .err :=
      takeWhile1_err (headNot_cons halnum)
    have hu : (c = '_') = False := by
      by_contra h'
      simp at h'
      simp [qcChar, h'] at hc
    have hm : (c = '-') = False := by
      by_contra h'
      simp at h'
      simp [qcChar, h'] at hc
    have hd : (c = '.') = False := by
      by_contra h'
      simp at h'
      simp [qcChar, h'] at hc
    simp [quotedElem, pAlt, h1, tag, List.take, hu, hm, hd]

theorem quotedElem_ok (c : Char) (cs' : List Char) (hc : qcChar c = true) :
    ∃ v r, quotedElem (c :: cs') = .ok v r ∧
      (c :: cs').dropWhile qcChar = r.dropWhile qcChar ∧
      r.length < cs'.length + 1 := by
  by_cases halnum : c.isAlphanum = true
  · set xs := (c :: cs').takeWhile Char.isAlphanum with hxs
    set r := (c :: cs').dropWhile Char.isAlphanum with hr
    have hsplit : c :: cs' = xs ++ r :=
      (List.takeWhile_append_dropWhile (p := Char.isAlphanum) (l := c :: cs')).symm
    have hxs_ne : xs ≠ [] := by
      simp [hxs, List.takeWhile, halnum]
    have h1 : alphanumeric1 (c :: cs') = .ok xs r := by
      simp [alphanumeric1, takeWhile1, hxs.symm, hr.symm, hxs_ne]
    refine ⟨xs, r, ?_, ?_, ?_⟩
    · simp [quotedElem, pAlt, h1]
    · have hall : ∀ x ∈ xs, qcChar x = true := by
        intro x hx
        have := takeWhile_all Char.isAlphanum (c :: cs') x hx
        simp [qcChar, this]
      calc (c :: cs').dropWhile qcChar
          = (xs ++ r).dropWhile qcChar := by rw [← hsplit]
        _ = r.dropWhile qcChar := dropWhile_append_all hall
    · have : (c :: cs').length = xs.length + r.length := by
        rw [hsplit, List.length_append]
      have hxlen : 1 ≤ xs.length := List.length_pos.mpr hxs_ne
      simp [List.length_cons] at this
      omega
  · have halnum' : c.isAlphanum = false := by
      cases h : c.isAlphanum with
      | false => rfl
      | true => exact absurd h halnum
    have h1 : alphanumeric1 (c :: cs') = .err :=
      takeWhile1_err (headNot_cons halnum')
    have hone : c = '_' ∨ c = '-' ∨ c = '.' := by
      by_contra h'
      push_neg at h'
      simp [qcChar, halnum', h'.1, h'.2.1, h'.2.2] at hc
    have hdropgoal : (c :: cs').dropWhile qcChar = cs'.dropWhile qcChar := by
      simp [List.dropWhile, hc]
    rcases hone with h' | h' | h'
    · subst h'
      refine ⟨['_'], cs', ?_, hdropgoal, by omega⟩
      have h2 : tag ['_'] ('_' :: cs') = .ok ['_'] cs' := by
        simpa using tag_run ['_'] cs'
      simp [quotedElem, pAlt, h1, h2]
    · subst h'
      refine ⟨['-'], cs', ?_, hdropgoal, by omega⟩
      have h2 : tag ['-'] ('-' :: cs') = .ok ['-'] cs' := by
        simpa using tag_run ['-'] cs'
      have h3 : tag ['_'] ('-' :: cs') = .err := by
        simp [tag, List.take]
      simp [quotedElem, pAlt, h1, h2, h3]
    · subst h'
      refine ⟨['.'], cs', ?_, hdropgoal, by omega⟩
      have h2 : tag ['.'] ('.' :: cs') = .ok ['.'] cs' := by
        simpa using tag_run ['.'] cs'
      have h3 : tag ['_'] ('.' :: cs') = .err := by
        simp [tag, List.take]
      have h4 : tag ['-'] ('.' :: cs') = .err := by
        simp [tag, List.take]
      simp [quotedElem, pAlt, h1, h2, h3, h4]

theorem char_eq_ofNat {c : Char} {n : Nat} (h : c.toNat = n) :
    c = Char.ofNat n := by
  have h2 := Char.ofNat_toNat c
  rw [h] at h2
  exact h2.symm

theorem digit_toNat_bounds {c : Char} (hc : c.isDigit = true) :
    48 ≤ c.toNat ∧ c.toNat ≤ 57 := by
  simp [Char.isDigit, Char.le_def, UInt32.le_def, BitVec.le_def] at hc
  exact hc

theorem digit_mem_digitChars {c : Char} (hc : c.isDigit = true) :
    c ∈ digitChars := by
  have hb := digit_toNat_bounds hc
  have h10 : c.toNat = 48 ∨ c.toNat = 49 ∨ c.toNat = 50 ∨ c.toNat = 51 ∨
      c.toNat = 52 ∨ c.toNat = 53 ∨ c.toNat = 54 ∨ c.toNat = 55 ∨
      c.toNat = 56 ∨ c.toNat = 57 := by omega
  rcases h10 with h | h | h | h | h | h | h | h | h | h <;>
    rw [char_eq_ofNat h] <;> decide

theorem oneOfDigit_err (cs : List Char) (h : HeadNot Char.isDigit cs) :
    oneOf digitChars cs = .err := by
  cases cs with
  | nil => rfl
  | cons c cs' =>
    have hc : c.isDigit = false := h c rfl
    have hnot : c ∉ digitChars := by
      intro hmem
      fin_cases hmem <;> simp_all
    simp [oneOf, hnot]

theorem oneOfDigit_ok (c : Char) (cs' : List Char) (hc : c.isDigit = true) :
    ∃ v r, oneOf digitChars (c :: cs') = .ok v r ∧
      (c :: cs').dropWhile Char.isDigit = r.dropWhile Char.isDigit ∧
      r.length < cs'.length + 1 := by
  have hmem : c ∈ digitChars := digit_mem_digitChars hc
  refine ⟨c, cs', by simp [oneOf, hmem], by simp [List.dropWhile, hc], by omega⟩

/-! Derived behaviour of column_name. -/

theorem identChar_of_alpha {c : Char} (h : c.isAlpha = true) :
    identChar c = true := by
  simp [identChar, Char.isAlphanum, h]

theorem identChar_of_alphanum {c : Char} (h : c.isAlphanum = true) :
    identChar c = true := by
  simp [identChar, h]

theorem many0Ident_run (cs : List Char) :
    ∃ n, pMany0Count identInner cs = .ok n (cs.dropWhile identChar) := by
  have := many0F_run (p := identInner) (κ := identChar)
    (fun cs h => identInner_err cs h) (fun c cs' h => identInner_ok c cs' h)
    cs.length cs (Nat.le_refl _)
  simpa [pMany0Count] using this

theorem column_name_run {c : Char} {cs' : List Char}
    (h : c.isAlpha = true ∨ c = '_') :
    column_name (c :: cs') =
      .ok ((c :: cs').takeWhile identChar) ((c :: cs').dropWhile identChar) := by
  have hsplitc : (c :: cs').takeWhile identChar ++ (c :: cs').dropWhile identChar
      = c :: cs' :=
    List.takeWhile_append_dropWhile (p := identChar) (l := c :: cs')
  rcases h with halpha | hund
  · set xs := (c :: cs').takeWhile Char.isAlpha with hxs
    set r := (c :: cs').dropWhile Char.isAlpha with hr
    have hsplit : c :: cs' = xs ++ r :=
      (List.takeWhile_append_dropWhile (p := Char.isAlpha) (l := c :: cs')).symm
    have hxs_ne : xs ≠ [] := by
      simp [hxs, List.takeWhile, halpha]
    have h1 : alpha1 (c :: cs') = .ok xs r := by
      simp [alpha1, takeWhile1, hxs.symm, hr.symm, hxs_ne]
    obtain ⟨n, h2⟩ := many0Ident_run r
    have hdrop : (c :: cs').dropWhile identChar = r.dropWhile identChar := by
      have hall : ∀ x ∈ xs, identChar x = true := by
        intro x hx
        exact identChar_of_alpha
          (takeWhile_all Char.isAlpha (c :: cs') x hx)
      calc (c :: cs').dropWhile identChar
          = (xs ++ r).dropWhile identChar := by rw [← hsplit]
        _ = r.dropWhile identChar := dropWhile_append_all hall
    simp only [column_name, pRecognize, pPair, pAlt, h1, h2]
    rw [← hdrop]
    congr 1
    exact take_sub_eq hsplitc.symm
  · subst hund
    have h1 : alpha1 ('_' :: cs') = .err := by
      apply takeWhile1_err
      apply headNot_cons
      decide
    have h2 : tag ['_'] ('_' :: cs') = .ok ['_'] cs' := by
      simpa using tag_run ['_'] cs'
    obtain ⟨n, h3⟩ := many0Ident_run cs'
    have hdrop : ('_' :: cs').dropWhile identChar = cs'.dropWhile identChar := by
      have h5 : identChar '_' = true := by decide
      simp [List.dropWhile, h5]
    simp only [column_name, pRecognize, pPair, pAlt, h1, h2, h3]
    rw [← hdrop]
    congr 1
    exact take_sub_eq hsplitc.symm

/-! Derived behaviour of the operator alternatives and filter_operator. -/

theorem take_one_ne {rest : List Char} {d : Char}
    (h : ∀ c, rest.head? = some c → c ≠ d) : rest.take 1 ≠ [d] := by
  cases rest with
  | nil => simp
  | cons c rs =>
    have := h c rfl
    simp [List.take, this]

theorem opAlt_run {op rest : List Char} (hop : op ∈ canonOps)
    (hne : ∀ c, rest.head? = some c → c ≠ '=') :
    opAlt (op ++ rest) = .ok op rest := by
  have hne1 := take_one_ne hne
  simp only [canonOps, List.mem_cons, List.not_mem_nil, or_false] at hop
  rcases hop with hk | hk | hk | hk | hk | hk | hk | hk <;> subst hk <;>
    simp [opAlt, pAlt, tag, tagNoCase, List.take, hne1]

theorem filter_operator_run {op ws2 rest' : List Char} (hop : op ∈ canonOps)
    (hws2 : ∀ c ∈ ws2, isSpaceTab c = true)
    (hrest : HeadNot isSpaceTab rest')
    (hne : ∀ c, (ws2 ++ rest').head? = some c → c ≠ '=') :
    filter_operator (op ++ ws2 ++ rest') = .ok op rest' := by
  have hhd : HeadNot isSpaceTab (op ++ ws2 ++ rest') := by
    simp only [canonOps, List.mem_cons, List.not_mem_nil, or_false] at hop
    rcases hop with hk | hk | hk | hk | hk | hk | hk | hk <;> subst hk <;>
      exact headNot_cons (by decide)
  have h0 : space0 (op ++ ws2 ++ rest') = .ok [] (op ++ ws2 ++ rest') := by
    have h00 : space0 ([] ++ (op ++ ws2 ++ rest')) =
        .ok [] (op ++ ws2 ++ rest') :=
      space0_run (by intro c hc; cases hc) hhd
    simpa using h00
  have h1 : opAlt (op ++ ws2 ++ rest') = .ok op (ws2 ++ rest') := by
    rw [List.append_assoc]
    exact opAlt_run hop hne
  have h2 : space0 (ws2 ++ rest') = .ok ws2 rest' := space0_run hws2 hrest
  have h0' : space0 (op ++ (ws2 ++ rest')) = .ok [] (op ++ (ws2 ++ rest')) := by
    rw [← List.append_assoc]; exact h0
  have h1' : opAlt (op ++ (ws2 ++ rest')) = .ok op (ws2 ++ rest') := by
    rw [← List.append_assoc]; exact h1
  simp [filter_operator, pTerminated, pPreceded, h0', h1', h2]

/-! Behaviour of recognize_float on the spec literal shapes. -/

theorem digit_ne {c d : Char} (h : c.isDigit = true) (hd : d.isDigit = false) :
    c ≠ d := by
  intro he
  subst he
  rw [h] at hd
  cases hd

theorem digit1_run {ds rest : List Char} (hne : ds ≠ [])
    (hall : ∀ c ∈ ds, c.isDigit = true) (hr : HeadNot Char.isDigit rest) :
    digit1 (ds ++ rest) = .ok ds rest :=
  takeWhile1_run hne hall hr

theorem digit1_err {cs : List Char} (h : HeadNot Char.isDigit cs) :
    digit1 cs = .err :=
  takeWhile1_err h

theorem signP_err {cs : List Char}
    (h : HeadNot (fun c => c = '+' || c = '-') cs) : signP cs = .err := by
  cases cs with
  | nil => rfl
  | cons c rest =>
    have hc := h c rfl
    simp only [Bool.or_eq_false_iff, decide_eq_false_iff_not] at hc
    simp [signP, pAlt, pChar_err rest hc.1, pChar_err rest hc.2]

theorem optSign_run {sg rest : List Char}
    (hsg : sg = [] ∨ sg = ['+'] ∨ sg = ['-'])
    (hrest : sg = [] → HeadNot (fun c => c = '+' || c = '-') rest) :
    ∃ v, pOpt signP (sg ++ rest) = .ok v rest := by
  rcases hsg with h | h | h <;> subst h
  · refine ⟨none, ?_⟩
    simp [pOpt, signP_err (hrest rfl)]
  · refine ⟨some '+', ?_⟩
    have := pChar_run '+' rest
    simp [pOpt, signP, pAlt, this]
  · refine ⟨some '-', ?_⟩
    have h1 : pChar '+' ('-' :: rest) = .err := pChar_err rest (by decide)
    have h2 := pChar_run '-' rest
    simp [pOpt, signP, pAlt, h1, h2]

theorem expShape_cases {ex : List Char} (h : ExpShape ex) :
    ∃ e rest', ex = e :: rest' ∧ (e = 'e' ∨ e = 'E') := by
  obtain ⟨e, es, eds, he, _, _, _, hex⟩ := h
  exact ⟨e, es ++ eds, hex, he⟩

theorem floatTail_headNotDigit {tail : List Char} (h : FloatTail tail) :
    HeadNot Char.isDigit tail := by
  rcases h with h | h | h
  · subst h; exact headNot_nil _
  · obtain ⟨e, rest', hex, he⟩ := expShape_cases h
    subst hex
    rcases he with he | he <;> subst he <;> exact headNot_cons (by decide)
  · obtain ⟨fs, ex, _, _, _, ht⟩ := h
    subst ht
    exact headNot_cons (by decide)

theorem pAlt_ok {α : Type} {p q : P α} {cs r : List Char} {v : α}
    (h : p cs = .ok v r) : pAlt p q cs = .ok v r := by
  simp [pAlt, h]

theorem pAlt_err {α : Type} {p q : P α} {cs : List Char}
    (h : p cs = .err) : pAlt p q cs = q cs := by
  simp [pAlt, h]

theorem pOpt_ok {α : Type} {p : P α} {cs r : List Char} {v : α}
    (h : p cs = .ok v r) : pOpt p cs = .ok (some v) r := by
  simp [pOpt, h]

theorem pOpt_err {α : Type} {p : P α} {cs : List Char}
    (h : p cs = .err) : pOpt p cs = .ok none cs := by
  simp [pOpt, h]

theorem pCut_ok {α : Type} {p : P α} {cs r : List Char} {v : α}
    (h : p cs = .ok v r) : pCut p cs = .ok v r := by
  simp [pCut, h]

theorem pMap_ok {α β : Type} {p : P α} {f : α → β} {cs r : List Char} {v : α}
    (h : p cs = .ok v r) : pMap p f cs = .ok (f v) r := by
  simp [pMap, h]

theorem pMap_err {α β : Type} {p : P α} {f : α → β} {cs : List Char}
    (h : p cs = .err) : pMap p f cs = .err := by
  simp [pMap, h]

theorem pPair_ok {α β : Type} {p : P α} {q : P β} {cs r1 r2 : List Char}
    {a : α} {b : β} (hp : p cs = .ok a r1) (hq : q r1 = .ok b r2) :
    pPair p q cs = .ok (a, b) r2 := by
  simp [pPair, hp, hq]

theorem pPair_errL {α β : Type} {p : P α} {q : P β} {cs : List Char}
    (hp : p cs = .err) : pPair p q cs = .err := by
  simp [pPair, hp]

theorem pPreceded_run {α β : Type} {p : P α} {q : P β} {cs r : List Char}
    {a : α} (hp : p cs = .ok a r) : pPreceded p q cs = q r := by
  simp [pPreceded, hp]

theorem pTerminated_ok {α β : Type} {p : P α} {q : P β} {cs r r2 : List Char}
    {a : α} {b : β} (hp : p cs = .ok a r) (hq : q r = .ok b r2) :
    pTerminated p q cs = .ok a r2 := by
  simp [pTerminated, hp, hq]

theorem pDelimited_ok {α β γ : Type} {pa : P α} {pb : P β} {pc : P γ}
    {cs r1 r2 r3 : List Char} {a : α} {b : β} {c : γ}
    (ha : pa cs = .ok a r1) (hb : pb r1 = .ok b r2) (hc : pc r2 = .ok c r3) :
    pDelimited pa pb pc cs = .ok b r3 := by
  simp [pDelimited, ha, hb, hc]

theorem pRecognize_ok {α : Type} {p : P α} {cs r : List Char} {v : α}
    (h : p cs = .ok v r) :
    pRecognize p cs = .ok (cs.take (cs.length - r.length)) r := by
  simp [pRecognize, h]

theorem pRecognize_err {α : Type} {p : P α} {cs : List Char}
    (h : p cs = .err) : pRecognize p cs = .err := by
  simp [pRecognize, h]

theorem optExp_run {ex : List Char} (h : ex = [] ∨ ExpShape ex) :
    ∃ v, pOpt floatExp ex = .ok v [] := by
  rcases h with h | h
  · subst h
    exact ⟨none, by simp [pOpt, floatExp, pMap, pPair, pAlt, pChar]⟩
  · obtain ⟨e, es, eds, he, hes, hedsne, hedsall, hex⟩ := h
    subst hex
    have h1 : pAlt (pChar 'e') (pChar 'E') (e :: (es ++ eds)) =
        .ok e (es ++ eds) := by
      rcases he with he | he <;> subst he
      · exact pAlt_ok (pChar_run 'e' (es ++ eds))
      · rw [pAlt_err (pChar_err (x := 'E') (c := 'e') (es ++ eds) (by decide))]
        exact pChar_run 'E' (es ++ eds)
    have h2 : ∃ v, pOpt signP (es ++ eds) = .ok v eds := by
      apply optSign_run hes
      intro _
      cases eds with
      | nil => exact absurd rfl hedsne
      | cons d ds' =>
        apply headNot_cons
        have hd : d.isDigit = true := hedsall d (by simp)
        have h3 : d ≠ '+' := digit_ne hd (by decide)
        have h4 : d ≠ '-' := digit_ne hd (by decide)
        simp [h3, h4]
    obtain ⟨v2, h2⟩ := h2
    have h3 : digit1 eds = .ok eds [] := by
      have := digit1_run hedsne hedsall (headNot_nil Char.isDigit)
      simpa using this
    refine ⟨some (), ?_⟩
    apply pOpt_ok
    apply pMap_ok
    exact pPair_ok h1 (pPair_ok h2 (pCut_ok h3))

theorem floatBody_run {ds tail : List Char} (hds : ds ≠ [])
    (hall : ∀ c ∈ ds, c.isDigit = true) (ht : FloatTail tail) :
    ∃ rest1, floatBody (ds ++ tail) = .ok () rest1 ∧
      (rest1 = [] ∨ ExpShape rest1) := by
  have hdig : digit1 (ds ++ tail) = .ok ds tail :=
    digit1_run hds hall (floatTail_headNotDigit ht)
  rcases ht with h | h | h
  · refine ⟨[], ?_, Or.inl rfl⟩
    subst h
    have hopt : pOpt (pPair (pChar '.') (pOpt digit1)) ([] : List Char) =
        .ok none [] := pOpt_err (pPair_errL (pChar_nil '.'))
    exact pAlt_ok (pMap_ok (pPair_ok hdig hopt))
  · obtain ⟨e, rest', hex, he⟩ := expShape_cases h
    have hdot : pChar '.' tail = .err := by
      subst hex
      rcases he with he | he <;> subst he <;> exact pChar_err rest' (by decide)
    refine ⟨tail, ?_, Or.inr h⟩
    have hopt : pOpt (pPair (pChar '.') (pOpt digit1)) tail = .ok none tail :=
      pOpt_err (pPair_errL hdot)
    exact pAlt_ok (pMap_ok (pPair_ok hdig hopt))
  · obtain ⟨fs, ex, hfsne, hfsall, hexshape, htail⟩ := h
    subst htail
    have hdot : pChar '.' ('.' :: (fs ++ ex)) = .ok '.' (fs ++ ex) :=
      pChar_run '.' (fs ++ ex)
    have hfs : digit1 (fs ++ ex) = .ok fs ex := by
      apply digit1_run hfsne hfsall
      rcases hexshape with h | h
      · subst h; exact headNot_nil _
      · obtain ⟨e, rest', hex, he⟩ := expShape_cases h
        subst hex
        rcases he with he | he <;> subst he <;> exact headNot_cons (by decide)
    refine ⟨ex, ?_, hexshape⟩
    have hopt : pOpt (pPair (pChar '.') (pOpt digit1)) ('.' :: (fs ++ ex)) =
        .ok (some ('.', some fs)) ex :=
      pOpt_ok (pPair_ok hdot (pOpt_ok hfs))
    exact pAlt_ok (pMap_ok (pPair_ok hdig hopt))

theorem floatInner_run {sg ds tail : List Char}
    (hsg : sg = [] ∨ sg = ['+'] ∨ sg = ['-']) (hds : ds ≠ [])
    (hall : ∀ c ∈ ds, c.isDigit = true) (ht : FloatTail tail) :
    ∃ v, pPair (pOpt signP) (pPair floatBody (pOpt floatExp))
      (sg ++ ds ++ tail) = .ok v [] := by
  have hsign : ∃ v, pOpt signP (sg ++ (ds ++ tail)) = .ok v (ds ++ tail) := by
    apply optSign_run hsg
    intro _
    cases ds with
    | nil => exact absurd rfl hds
    | cons d ds' =>
      apply headNot_cons
      have hd : d.isDigit = true := hall d (by simp)
      have h3 : d ≠ '+' := digit_ne hd (by decide)
      have h4 : d ≠ '-' := digit_ne hd (by decide)
      simp [h3, h4]
  obtain ⟨v1, hsign⟩ := hsign
  obtain ⟨rest1, hbody, hrest1⟩ := floatBody_run hds hall ht
  obtain ⟨v3, hexp⟩ := optExp_run hrest1
  refine ⟨(v1, (), v3), ?_⟩
  rw [List.append_assoc]
  exact pPair_ok hsign (pPair_ok hbody hexp)

theorem recognizeFloat_run {sg ds tail : List Char}
    (hsg : sg = [] ∨ sg = ['+'] ∨ sg = ['-']) (hds : ds ≠ [])
    (hall : ∀ c ∈ ds, c.isDigit = true) (ht : FloatTail tail) :
    recognizeFloat (sg ++ ds ++ tail) = .ok (sg ++ ds ++ tail) [] := by
  obtain ⟨v, h⟩ := floatInner_run hsg hds hall ht
  rw [recognizeFloat, pRecognize_ok h]
  simp [List.take_length]

/-! Decompositions of the Bool-level spec literal shapes into structured
form, and the behaviour of filter_field on each shape. -/

theorem pPair_errR {α β : Type} {p : P α} {q : P β} {cs r : List Char} {a : α}
    (hp : p cs = .ok a r) (hq : q r = .err) : pPair p q cs = .err := by
  simp [pPair, hp, hq]

theorem ne_nil_of_not_isEmpty {cs : List Char} (h : (!cs.isEmpty) = true) :
    cs ≠ [] := by
  intro he
  subst he
  simp at h

theorem nil_of_isEmpty {cs : List Char} (h : cs.isEmpty = true) : cs = [] := by
  cases cs with
  | nil => rfl
  | cons a b => simp at h

theorem isIntLit_parts {cs : List Char} (h : isIntLit cs = true) :
    cs ≠ [] ∧ ∀ c ∈ cs, c.isDigit = true := by
  simp only [isIntLit, Bool.and_eq_true, List.all_eq_true] at h
  exact ⟨ne_nil_of_not_isEmpty h.1, h.2⟩

theorem expB_shape {cs : List Char} (h : expB cs = true) : ExpShape cs := by
  cases cs with
  | nil => simp [expB] at h
  | cons c rest =>
    cases rest with
    | nil => simp [expB] at h
    | cons s tl =>
      simp only [expB, Bool.and_eq_true, Bool.or_eq_true, decide_eq_true_eq] at h
      obtain ⟨he, h2⟩ := h
      split at h2
      · rename_i hs
        obtain ⟨hne, hall⟩ := isIntLit_parts h2
        refine ⟨c, [s], tl, he, ?_, hne, hall, by simp⟩
        rcases hs with hs | hs <;> subst hs <;> simp
      · obtain ⟨hne, hall⟩ := isIntLit_parts h2
        exact ⟨c, [], s :: tl, he, Or.inl rfl, hne, hall, by simp⟩

theorem floatTailB_shape {t : List Char} (h : floatTailB t = true) :
    FloatTail t ∧ t ≠ [] := by
  cases t with
  | nil => simp [floatTailB] at h
  | cons c rest =>
    simp only [floatTailB] at h
    split at h
    · rename_i hc
      subst hc
      simp only [Bool.and_eq_true, Bool.or_eq_true] at h
      obtain ⟨hfs0, htl⟩ := h
      have hfs : rest.takeWhile Char.isDigit ≠ [] := ne_nil_of_not_isEmpty hfs0
      have hsplit : rest =
          rest.takeWhile Char.isDigit ++ rest.dropWhile Char.isDigit :=
        (List.takeWhile_append_dropWhile (p := Char.isDigit) (l := rest)).symm
      have hfsall : ∀ x ∈ rest.takeWhile Char.isDigit, x.isDigit = true :=
        fun x hx => takeWhile_all Char.isDigit rest x hx
      rcases htl with htl | htl
      · have := nil_of_isEmpty htl
        refine ⟨Or.inr (Or.inr ⟨rest.takeWhile Char.isDigit,
          rest.dropWhile Char.isDigit, hfs, hfsall, Or.inl this, ?_⟩), by simp⟩
        rw [List.cons_append, ← hsplit]
      · refine ⟨Or.inr (Or.inr ⟨rest.takeWhile Char.isDigit,
          rest.dropWhile Char.isDigit, hfs, hfsall,
          Or.inr (expB_shape htl), ?_⟩), by simp⟩
        rw [List.cons_append, ← hsplit]
    · exact ⟨Or.inr (Or.inl (expB_shape h)), by simp⟩

theorem isFloatLit_decomp {lit : List Char} (h : isFloatLit lit = true) :
    ∃ sg ds tail, (sg = [] ∨ sg = ['+'] ∨ sg = ['-']) ∧ ds ≠ [] ∧
      (∀ c ∈ ds, c.isDigit = true) ∧ FloatTail tail ∧ tail ≠ [] ∧
      lit = sg ++ ds ++ tail := by
  obtain ⟨sg, hsg, hlit⟩ : ∃ sg, (sg = [] ∨ sg = ['+'] ∨ sg = ['-']) ∧
      lit = sg ++ unsign lit := by
    cases lit with
    | nil => exact ⟨[], Or.inl rfl, by simp [unsign]⟩
    | cons c tl =>
      by_cases hc : (c = '+' || c = '-') = true
      · refine ⟨[c], ?_, ?_⟩
        · simp only [Bool.or_eq_true, decide_eq_true_eq] at hc
          rcases hc with hc | hc <;> subst hc <;> simp
        · simp [unsign, hc]
      · refine ⟨[], Or.inl rfl, ?_⟩
        simp [unsign, hc]
  simp only [isFloatLit, Bool.and_eq_true] at h
  obtain ⟨hds0, htail⟩ := h
  have hds : (unsign lit).takeWhile Char.isDigit ≠ [] :=
    ne_nil_of_not_isEmpty hds0
  have hsplit : unsign lit =
      (unsign lit).takeWhile Char.isDigit ++
        (unsign lit).dropWhile Char.isDigit :=
    (List.takeWhile_append_dropWhile (p := Char.isDigit)
      (l := unsign lit)).symm
  have hdsall : ∀ c ∈ (unsign lit).takeWhile Char.isDigit, c.isDigit = true :=
    fun c hc => takeWhile_all Char.isDigit (unsign lit) c hc
  obtain ⟨hft, htne⟩ := floatTailB_shape htail
  refine ⟨sg, (unsign lit).takeWhile Char.isDigit,
    (unsign lit).dropWhile Char.isDigit, hsg, hds, hdsall, hft, htne, ?_⟩
  calc lit = sg ++ unsign lit := hlit
    _ = sg ++ ((unsign lit).takeWhile Char.isDigit ++
        (unsign lit).dropWhile Char.isDigit) := by rw [← hsplit]
    _ = sg ++ (unsign lit).takeWhile Char.isDigit ++
        (unsign lit).dropWhile Char.isDigit := by rw [List.append_assoc]

theorem isQuotedLit_decomp {lit : List Char} (h : isQuotedLit lit = true) :
    ∃ inner, lit = '\'' :: (inner ++ ['\'']) ∧ inner ≠ [] ∧
      (∀ c ∈ inner, qcChar c = true) ∧ litValue lit = inner := by
  cases lit with
  | nil => simp [isQuotedLit] at h
  | cons c rest =>
    simp only [isQuotedLit, Bool.and_eq_true, List.all_eq_true,
      decide_eq_true_eq] at h
    obtain ⟨⟨⟨hc, hlast⟩, hne0⟩, hall⟩ := h
    subst hc
    have hne : rest.dropLast ≠ [] := ne_nil_of_not_isEmpty hne0
    rcases List.eq_nil_or_concat rest with hrest | ⟨ys, y, hrest⟩
    · subst hrest
      simp at hlast
    · rw [List.concat_eq_append] at hrest
      subst hrest
      rw [List.getLast?_concat] at hlast
      have hy : y = '\'' := by
        simpa using hlast
      subst hy
      rw [List.dropLast_concat] at hne hall
      refine ⟨ys, rfl, hne, hall, ?_⟩
      simp [litValue, List.dropLast_concat]

theorem filter_field_num {lit : List Char}
    (h : isFloatLit lit = true ∨ isIntLit lit = true) :
    filter_field lit = .ok lit [] := by
  have hrf : recognizeFloat lit = .ok lit [] := by
    rcases h with h | h
    · obtain ⟨sg, ds, tail, hsg, hds, hall, hft, _, hlit⟩ := isFloatLit_decomp h
      rw [hlit]
      exact recognizeFloat_run hsg hds hall hft
    · obtain ⟨hne, hall⟩ := isIntLit_parts h
      have h1 : recognizeFloat ([] ++ lit ++ []) = .ok ([] ++ lit ++ []) [] :=
        recognizeFloat_run (Or.inl rfl) hne hall (Or.inl rfl)
      simpa using h1
  rw [filter_field]
  exact pAlt_ok hrf

theorem quote_not_sign : ('\'' = '+' || '\'' = '-') = false := by decide

theorem filter_field_quoted {lit : List Char} (h : isQuotedLit lit = true) :
    filter_field lit = .ok (litValue lit) [] := by
  obtain ⟨inner, hlit, hne, hall, hval⟩ := isQuotedLit_decomp h
  rw [hlit] at hval ⊢
  have hqhd : HeadNot Char.isDigit ('\'' :: (inner ++ ['\''])) :=
    headNot_cons (by decide)
  have hrf : recognizeFloat ('\'' :: (inner ++ ['\''])) = .err := by
    have hsign : pOpt signP ('\'' :: (inner ++ ['\''])) =
        .ok none ('\'' :: (inner ++ ['\''])) :=
      pOpt_err (signP_err (headNot_cons (by decide)))
    have hbody : floatBody ('\'' :: (inner ++ ['\''])) = .err := by
      have h1 : digit1 ('\'' :: (inner ++ ['\''])) = .err := digit1_err hqhd
      have h2 : pChar '.' ('\'' :: (inner ++ ['\''])) = .err :=
        pChar_err _ (by decide)
      rw [floatBody, pAlt_err (pMap_err (pPair_errL h1))]
      exact pMap_err (pPair_errL h2)
    rw [recognizeFloat]
    exact pRecognize_err (pPair_errR hsign (pPair_errL hbody))
  have hint : pRecognize (pMany1Count (oneOf digitChars))
      ('\'' :: (inner ++ ['\''])) = .err := by
    apply pRecognize_err
    exact many1_err (fun cs h => oneOfDigit_err cs h) hqhd
  have hquoted : pDelimited (pChar '\'')
      (pRecognize (pMany1Count quotedElem)) (pChar '\'')
      ('\'' :: (inner ++ ['\''])) = .ok inner [] := by
    have h1 : pChar '\'' ('\'' :: (inner ++ ['\''])) =
        .ok '\'' (inner ++ ['\'']) := pChar_run _ _
    have h2 : pRecognize (pMany1Count quotedElem) (inner ++ ['\'']) =
        .ok inner ['\''] := by
      cases inner with
      | nil => exact absurd rfl hne
      | cons i0 itl =>
        rw [List.cons_append]
        have hq0 : qcChar i0 = true := hall i0 (by simp)
        obtain ⟨n, hm⟩ : ∃ n, pMany1Count quotedElem (i0 :: (itl ++ ['\''])) =
            .ok n ((i0 :: (itl ++ ['\''])).dropWhile qcChar) :=
          many1_run (fun cs h => quotedElem_err cs h)
            (fun c cs' h => quotedElem_ok c cs' h) hq0
        have hdrop : (i0 :: (itl ++ ['\''])).dropWhile qcChar = ['\''] := by
          have hallq : ∀ c ∈ i0 :: itl, qcChar c = true := hall
          have : ((i0 :: itl) ++ ['\'']).dropWhile qcChar =
              (['\''] : List Char).dropWhile qcChar :=
            dropWhile_append_all hallq
          simpa [List.dropWhile] using this
        rw [hdrop] at hm
        have := pRecognize_ok hm
        rw [this]
        congr 1
        exact take_sub_eq
          (show i0 :: (itl ++ ['\'']) = (i0 :: itl) ++ ['\''] by simp)
    have h3 : pChar '\'' ['\''] = .ok '\'' [] := pChar_run _ _
    exact pDelimited_ok h1 h2 h3
  rw [hval, filter_field, pAlt_err hrf, pAlt_err hint]
  exact hquoted

theorem filter_field_run {lit : List Char} (h : isSpecLit lit = true) :
    filter_field lit = .ok (litValue lit) [] := by
  simp only [isSpecLit, Bool.or_eq_true] at h
  rcases h with (h | h) | h
  · have hval : litValue lit = lit := by
      obtain ⟨sg, ds, tail, hsg, hds, hall, _, _, hlit⟩ := isFloatLit_decomp h
      rcases hsg with hsg | hsg | hsg <;> subst hsg <;> subst hlit
      · cases ds with
        | nil => exact absurd rfl hds
        | cons d dtl =>
          have hd : d.isDigit = true := hall d (by simp)
          have : d ≠ '\'' := digit_ne hd (by decide)
          simp [litValue, this]
      · simp [litValue]
      · simp [litValue]
    rw [hval]
    exact filter_field_num (Or.inl h)
  · have hval : litValue lit = lit := by
      obtain ⟨hne, hall⟩ := isIntLit_parts h
      cases lit with
      | nil => exact absurd rfl hne
      | cons d dtl =>
        have hd : d.isDigit = true := hall d (by simp)
        have : d ≠ '\'' := digit_ne hd (by decide)
        simp [litValue, this]
    rw [hval]
    exact filter_field_num (Or.inr h)
  · exact filter_field_quoted h

/-! Composition: behaviour of the whole triple parser on a well-formed
input built from a spec identifier, a canonical operator, and a spec
literal, with arbitrary space/tab runs around the operator. -/

theorem spaceTab_cases {c : Char} (h : isSpaceTab c = true) :
    c = ' ' ∨ c = '\t' := by
  simp only [isSpaceTab, Bool.or_eq_true, decide_eq_true_eq] at h
  exact h

theorem isSpaceTab_false_of {c : Char} (h1 : c ≠ ' ') (h2 : c ≠ '\t') :
    isSpaceTab c = false := by
  simp [isSpaceTab, h1, h2]

theorem specLit_head {lit : List Char} (h : isSpecLit lit = true) :
    ∃ c tl, lit = c :: tl ∧
      (c.isDigit = true ∨ c = '+' ∨ c = '-' ∨ c = '\'') := by
  simp only [isSpecLit, Bool.or_eq_true] at h
  rcases h with (h | h) | h
  · obtain ⟨sg, ds, tail, hsg, hds, hall, _, _, hlit⟩ := isFloatLit_decomp h
    rcases hsg with hsg | hsg | hsg <;> subst hsg
    · cases ds with
      | nil => exact absurd rfl hds
      | cons d dtl =>
        exact ⟨d, dtl ++ tail, by simpa using hlit, Or.inl (hall d (by simp))⟩
    · exact ⟨'+', ds ++ tail, by simpa using hlit, Or.inr (Or.inl rfl)⟩
    · exact ⟨'-', ds ++ tail, by simpa using hlit, Or.inr (Or.inr (Or.inl rfl))⟩
  · obtain ⟨hne, hall⟩ := isIntLit_parts h
    cases lit with
    | nil => exact absurd rfl hne
    | cons d dtl => exact ⟨d, dtl, rfl, Or.inl (hall d (by simp))⟩
  · obtain ⟨inner, hlit, _, _, _⟩ := isQuotedLit_decomp h
    exact ⟨'\'', inner ++ ['\''], hlit, Or.inr (Or.inr (Or.inr rfl))⟩

theorem specLit_headNotSpace {lit : List Char} (h : isSpecLit lit = true) :
    HeadNot isSpaceTab lit := by
  obtain ⟨c, tl, hlit, hc⟩ := specLit_head h
  subst hlit
  apply headNot_cons
  rcases hc with hc | hc | hc | hc
  · exact isSpaceTab_false_of (digit_ne hc (by decide)) (digit_ne hc (by decide))
  · subst hc; decide
  · subst hc; decide
  · subst hc; decide

theorem specLit_headNotEq {lit : List Char} (h : isSpecLit lit = true) :
    ∀ c, lit.head? = some c → c ≠ '=' := by
  obtain ⟨c, tl, hlit, hc⟩ := specLit_head h
  subst hlit
  intro d hd
  simp only [List.head?_cons, Option.some.injEq] at hd
  subst hd
  rcases hc with hc | hc | hc | hc
  · exact digit_ne hc (by decide)
  · subst hc; decide
  · subst hc; decide
  · subst hc; decide

theorem isIdentB_parts {cs : List Char} (h : isIdentB cs = true) :
    ∃ c tl, cs = c :: tl ∧ (c.isAlpha = true ∨ c = '_') ∧
      ∀ x ∈ cs, identChar x = true := by
  cases cs with
  | nil => simp [isIdentB] at h
  | cons c tl =>
    simp only [isIdentB, Bool.and_eq_true, Bool.or_eq_true,
      decide_eq_true_eq, List.all_eq_true] at h
    obtain ⟨hc, hall⟩ := h
    refine ⟨c, tl, rfl, hc, ?_⟩
    intro x hx
    rcases List.mem_cons.mp hx with hx | hx
    · subst hx
      rcases hc with hc | hc
      · exact identChar_of_alpha hc
      · subst hc; decide
    · exact hall x hx

theorem column_stage {col rest : List Char} (hcol : isIdentB col = true)
    (hrest : HeadNot identChar rest) :
    pPreceded space0 column_name (col ++ rest) = .ok col rest := by
  obtain ⟨c, tl, hc_eq, hhead, hall⟩ := isIdentB_parts hcol
  have hnospace : HeadNot isSpaceTab (col ++ rest) := by
    subst hc_eq
    apply headNot_cons
    rcases hhead with hh | hh
    · have h1 : c ≠ ' ' := by
        intro he; subst he; simp at hh
      have h2 : c ≠ '\t' := by
        intro he; subst he; simp at hh
      exact isSpaceTab_false_of h1 h2
    · subst hh; decide
  have h0 : space0 (col ++ rest) = .ok [] (col ++ rest) := by
    have h00 : space0 ([] ++ (col ++ rest)) = .ok [] (col ++ rest) :=
      space0_run (by intro x hx; cases hx) hnospace
    simpa using h00
  have hrun : column_name (col ++ rest) = .ok col rest := by
    have htake := takeWhile_append_run (p := identChar) hall hrest
    subst hc_eq
    rw [List.cons_append]
    have hcn : column_name (c :: (tl ++ rest)) =
        .ok ((c :: (tl ++ rest)).takeWhile identChar)
          ((c :: (tl ++ rest)).dropWhile identChar) := column_name_run hhead
    rw [hcn, ← List.cons_append]
    rw [htake.1, htake.2]
  rw [pPreceded_run h0]
  exact hrun

theorem opHead_notSpace {op rest : List Char} (hop : op ∈ canonOps) :
    HeadNot isSpaceTab (op ++ rest) := by
  simp only [canonOps, List.mem_cons, List.not_mem_nil, or_false] at hop
  rcases hop with hk | hk | hk | hk | hk | hk | hk | hk <;> subst hk <;>
    exact headNot_cons (by decide)

theorem parseTriple_wellformed {col op lit ws1 ws2 : List Char}
    (hcol : isIdentB col = true) (hop : op ∈ canonOps)
    (hlit : isSpecLit lit = true)
    (hws1 : ∀ c ∈ ws1, isSpaceTab c = true)
    (hws2 : ∀ c ∈ ws2, isSpaceTab c = true)
    (hword : op = ['i', 'n'] ∨ op = ['n', 'o', 't', ' ', 'i', 'n'] →
      ws1 ≠ []) :
    parseTriple (col ++ ws1 ++ op ++ ws2 ++ lit) =
      .ok (col, op, litValue lit) [] := by
  have hin : col ++ ws1 ++ op ++ ws2 ++ lit =
      col ++ (ws1 ++ (op ++ (ws2 ++ lit))) := by
    simp [List.append_assoc]
  have hlitSpace : HeadNot isSpaceTab lit := specLit_headNotSpace hlit
  have hColRest : HeadNot identChar (ws1 ++ (op ++ (ws2 ++ lit))) := by
    cases ws1 with
    | cons w wtl =>
      rw [List.cons_append]
      apply headNot_cons
      rcases spaceTab_cases (hws1 w (by simp)) with hw | hw <;> subst hw <;>
        decide
    | nil =>
      simp only [List.nil_append]
      have hsym : op = ['='] ∨ op = ['!', '='] ∨ op = ['>', '='] ∨
          op = ['>'] ∨ op = ['<', '='] ∨ op = ['<'] := by
        simp only [canonOps, List.mem_cons, List.not_mem_nil, or_false] at hop
        have h7 : op ≠ ['i', 'n'] := fun he => absurd (hword (.inl he)) (by simp)
        have h8 : op ≠ ['n', 'o', 't', ' ', 'i', 'n'] := fun he =>
          absurd (hword (.inr he)) (by simp)
        tauto
      rcases hsym with hk | hk | hk | hk | hk | hk <;> subst hk <;>
        exact headNot_cons (by decide)
  have hs1 : pPreceded space0 column_name
      (col ++ (ws1 ++ (op ++ (ws2 ++ lit)))) =
      .ok col (ws1 ++ (op ++ (ws2 ++ lit))) :=
    column_stage hcol hColRest
  have hne : ∀ c, (ws2 ++ lit).head? = some c → c ≠ '=' := by
    cases ws2 with
    | cons w wtl =>
      intro c hc
      simp only [List.cons_append, List.head?_cons, Option.some.injEq] at hc
      subst hc
      rcases spaceTab_cases (hws2 w (by simp)) with hw | hw <;> subst hw <;>
        decide
    | nil =>
      simp only [List.nil_append]
      exact specLit_headNotEq hlit
  have hs2 : pPreceded space0 filter_operator (ws1 ++ (op ++ (ws2 ++ lit))) =
      .ok op lit := by
    have h0 : space0 (ws1 ++ (op ++ (ws2 ++ lit))) =
        .ok ws1 (op ++ (ws2 ++ lit)) :=
      space0_run hws1 (opHead_notSpace hop)
    rw [pPreceded_run h0]
    have := filter_operator_run hop hws2 hlitSpace hne
    rw [← List.append_assoc]
    exact this
  have hs3 : pPreceded space0 filter_field lit = .ok (litValue lit) [] := by
    have h0 : space0 lit = .ok [] lit := by
      have h00 : space0 ([] ++ lit) = .ok [] lit :=
        space0_run (by intro x hx; cases hx) hlitSpace
      simpa using h00
    rw [pPreceded_run h0]
    exact filter_field_run hlit
  rw [hin]
  simp only [parseTriple, hs1, hs2, hs3]

theorem filter_condition_wellformed {col op lit ws1 ws2 : List Char}
    (hcol : isIdentB col = true) (hop : op ∈ canonOps)
    (hlit : isSpecLit lit = true)
    (hws1 : ∀ c ∈ ws1, isSpaceTab c = true)
    (hws2 : ∀ c ∈ ws2, isSpaceTab c = true)
    (hword : op = ['i', 'n'] ∨ op = ['n', 'o', 't', ' ', 'i', 'n'] →
      ws1 ≠ []) :
    filter_condition (col ++ ws1 ++ op ++ ws2 ++ lit) =
      .ok (col, op, litValue lit) := by
  rw [filter_condition,
    parseTriple_wellformed hcol hop hlit hws1 hws2 hword]

/-! Inversion lemmas: what a successful parse says about the input.  Every
parser of the grammar returns a suffix of its input, and the matched slices
of the primitive parsers split the input exactly. -/

theorem pAlt_cases {α : Type} {p q : P α} {cs : List Char} {v : α}
    {r : List Char} (h : pAlt p q cs = .ok v r) :
    p cs = .ok v r ∨ (p cs = .err ∧ q cs = .ok v r) := by
  unfold pAlt at h
  split at h
  · rename_i hpc
    exact Or.inr ⟨hpc, h⟩
  · exact Or.inl h

theorem tag_split {t cs m r : List Char} (h : tag t cs = .ok m r) :
    cs = m ++ r := by
  unfold tag at h
  split at h
  · simp only [PRes.ok.injEq] at h
    obtain ⟨hm, hr⟩ := h
    subst hm; subst hr
    exact (List.take_append_drop _ _).symm
  · cases h

theorem tag_matched {t cs m r : List Char} (h : tag t cs = .ok m r) :
    m = t := by
  unfold tag at h
  split at h
  · rename_i hcond
    simp only [PRes.ok.injEq] at h
    exact h.1.symm.trans hcond
  · cases h

theorem tagNoCase_split {t cs m r : List Char} (h : tagNoCase t cs = .ok m r) :
    cs = m ++ r := by
  unfold tagNoCase at h
  split at h
  · simp only [PRes.ok.injEq] at h
    obtain ⟨hm, hr⟩ := h
    subst hm; subst hr
    exact (List.take_append_drop _ _).symm
  · cases h

theorem tagNoCase_matched {t cs m r : List Char}
    (h : tagNoCase t cs = .ok m r) :
    m.map Char.toLower = t.map Char.toLower := by
  unfold tagNoCase at h
  split at h
  · rename_i hcond
    simp only [PRes.ok.injEq] at h
    rw [← h.1]
    exact hcond
  · cases h

theorem space0_split {cs m r : List Char} (h : space0 cs = .ok m r) :
    cs = m ++ r := by
  simp only [space0, PRes.ok.injEq] at h
  obtain ⟨hm, hr⟩ := h
  subst hm; subst hr
  exact (List.takeWhile_append_dropWhile _ _).symm

theorem takeWhile1_split {p : Char → Bool} {cs m r : List Char}
    (h : takeWhile1 p cs = .ok m r) : cs = m ++ r := by
  simp only [takeWhile1] at h
  split at h
  · cases h
  · simp only [PRes.ok.injEq] at h
    obtain ⟨hm, hr⟩ := h
    subst hm; subst hr
    exact (List.takeWhile_append_dropWhile _ _).symm

theorem takeWhile1_progress {p : Char → Bool} {cs m r : List Char}
    (h : takeWhile1 p cs = .ok m r) : r.length < cs.length := by
  have hsplit := takeWhile1_split h
  have hne : m ≠ [] := by
    simp only [takeWhile1] at h
    split at h
    · cases h
    · rename_i hcond
      simp only [PRes.ok.injEq] at h
      rw [← h.1]
      simpa [List.isEmpty_iff] using hcond
  have hlen : cs.length = m.length + r.length := by
    rw [hsplit, List.length_append]
  have : 0 < m.length := List.length_pos.mpr hne
  omega

theorem pChar_split {c : Char} {cs r : List Char} {v : Char}
    (h : pChar c cs = .ok v r) : cs = v :: r := by
  cases cs with
  | nil => simp [pChar] at h
  | cons x rest =>
    simp only [pChar] at h
    split at h
    · rename_i hx
      simp only [PRes.ok.injEq] at h
      rw [hx, h.1, h.2]
    · cases h

theorem oneOf_split {s cs r : List Char} {v : Char}
    (h : oneOf s cs = .ok v r) : cs = v :: r := by
  cases cs with
  | nil => simp [oneOf] at h
  | cons x rest =>
    simp only [oneOf] at h
    split at h
    · simp only [PRes.ok.injEq] at h
      rw [← h.1, ← h.2]
    · cases h

theorem sfx_of_split {α : Type} {p : P α}
    (h : ∀ cs v r, p cs = .ok v r → ∃ m, cs = m ++ r) : Sfx p := by
  intro cs v r hr
  obtain ⟨m, hm⟩ := h cs v r hr
  exact ⟨m, hm.symm⟩

theorem sfx_tag (t : List Char) : Sfx (tag t) :=
  sfx_of_split (fun _ v _ h => ⟨v, tag_split h⟩)

theorem sfx_tagNoCase (t : List Char) : Sfx (tagNoCase t) :=
  sfx_of_split (fun _ v _ h => ⟨v, tagNoCase_split h⟩)

theorem sfx_space0 : Sfx space0 :=
  sfx_of_split (fun _ v _ h => ⟨v, space0_split h⟩)

theorem sfx_takeWhile1 (p : Char → Bool) : Sfx (takeWhile1 p) :=
  sfx_of_split (fun _ v _ h => ⟨v, takeWhile1_split h⟩)

theorem sfx_pChar (c : Char) : Sfx (pChar c) :=
  sfx_of_split (fun _ v _ h => ⟨[v], pChar_split h⟩)

theorem sfx_oneOf (s : List Char) : Sfx (oneOf s) :=
  sfx_of_split (fun _ v _ h => ⟨[v], oneOf_split h⟩)

theorem sfx_pAlt {α : Type} {p q : P α} (hp : Sfx p) (hq : Sfx q) :
    Sfx (pAlt p q) := by
  intro cs v r h
  rcases pAlt_cases h with h | ⟨_, h⟩
  · exact hp cs v r h
  · exact hq cs v r h

theorem sfx_pOpt {α : Type} {p : P α} (hp : Sfx p) : Sfx (pOpt p) := by
  intro cs v r h
  unfold pOpt at h
  split at h
  · rename_i a b hpc
    simp only [PRes.ok.injEq] at h
    exact h.2 ▸ hp cs a b hpc
  · simp only [PRes.ok.injEq] at h
    exact h.2 ▸ List.suffix_refl cs
  · cases h

theorem sfx_pCut {α : Type} {p : P α} (hp : Sfx p) : Sfx (pCut p) := by
  intro cs v r h
  unfold pCut at h
  split at h
  · cases h
  · exact hp cs v r h

theorem sfx_pMap {α β : Type} {p : P α} {f : α → β} (hp : Sfx p) :
    Sfx (pMap p f) := by
  intro cs v r h
  unfold pMap at h
  split at h
  · rename_i a b hpc
    simp only [PRes.ok.injEq] at h
    exact h.2 ▸ hp cs a b hpc
  · cases h
  · cases h

theorem sfx_pPair {α β : Type} {p : P α} {q : P β} (hp : Sfx p) (hq : Sfx q) :
    Sfx (pPair p q) := by
  intro cs v r h
  unfold pPair at h
  split at h
  · rename_i a b hpc
    split at h
    · rename_i a2 b2 hqc
      simp only [PRes.ok.injEq] at h
      exact h.2 ▸ (hq b a2 b2 hqc).trans (hp cs a b hpc)
    · cases h
    · cases h
  · cases h
  · cases h

theorem sfx_pPreceded {α β : Type} {p : P α} {q : P β} (hp : Sfx p)
    (hq : Sfx q) : Sfx (pPreceded p q) := by
  intro cs v r h
  unfold pPreceded at h
  split at h
  · rename_i a b hpc
    exact (hq b v r h).trans (hp cs a b hpc)
  · cases h
  · cases h

theorem sfx_pTerminated {α β : Type} {p : P α} {q : P β} (hp : Sfx p)
    (hq : Sfx q) : Sfx (pTerminated p q) := by
  intro cs v r h
  unfold pTerminated at h
  split at h
  · rename_i a b hpc
    split at h
    · rename_i a2 b2 hqc
      simp only [PRes.ok.injEq] at h
      exact h.2 ▸ (hq b a2 b2 hqc).trans (hp cs a b hpc)
    · cases h
    · cases h
  · cases h
  · cases h

theorem sfx_pDelimited {α β γ : Type} {pa : P α} {pb : P β} {pc : P γ}
    (ha : Sfx pa) (hb : Sfx pb) (hc : Sfx pc) : Sfx (pDelimited pa pb pc) := by
  intro cs v r h
  unfold pDelimited at h
  split at h
  · rename_i a1 b1 hac
    split at h
    · rename_i a2 b2 hbc
      split at h
      · rename_i a3 b3 hcc
        simp only [PRes.ok.injEq] at h
        exact h.2 ▸ ((hc b2 a3 b3 hcc).trans (hb b1 a2 b2 hbc)).trans
          (ha cs a1 b1 hac)
      · cases h
      · cases h
    · cases h
    · cases h
  · cases h
  · cases h

theorem sfx_pRecognize {α : Type} {p : P α} (hp : Sfx p) :
    Sfx (pRecognize p) := by
  intro cs v r h
  unfold pRecognize at h
  split at h
  · rename_i a b hpc
    simp only [PRes.ok.injEq] at h
    exact h.2 ▸ hp cs a b hpc
  · cases h
  · cases h

theorem pRecognize_split {α : Type} {p : P α} (hp : Sfx p)
    {cs m r : List Char} (h : pRecognize p cs = .ok m r) : cs = m ++ r := by
  unfold pRecognize at h
  split at h
  · rename_i a b hpc
    simp only [PRes.ok.injEq] at h
    obtain ⟨pre, hpre⟩ := hp cs a b hpc
    rw [← h.1, ← h.2]
    rw [take_sub_eq hpre.symm]
    exact hpre.symm
  · cases h
  · cases h

theorem sfx_pMany0CountF {α : Type} {p : P α} (hp : Sfx p) :
    ∀ fuel, Sfx (fun cs => pMany0CountF p fuel cs) := by
  intro fuel
  induction fuel with
  | zero =>
    intro cs v r h
    simp only [pMany0CountF] at h
    split at h
    · simp only [PRes.ok.injEq] at h
      exact h.2 ▸ List.suffix_refl cs
    · cases h
    · cases h
  | succ fuel ih =>
    intro cs v r h
    simp only [pMany0CountF] at h
    split at h
    · simp only [PRes.ok.injEq] at h
      exact h.2 ▸ List.suffix_refl cs
    · cases h
    · rename_i a b hpc
      split at h
      · split at h
        · rename_i n rest hrec
          simp only [PRes.ok.injEq] at h
          exact h.2 ▸ (ih b n rest hrec).trans (hp cs a b hpc)
        · cases h
        · cases h
      · cases h

theorem sfx_pMany0Count {α : Type} {p : P α} (hp : Sfx p) :
    Sfx (pMany0Count p) := by
  intro cs v r h
  exact sfx_pMany0CountF hp cs.length cs v r h

theorem sfx_pMany1Count {α : Type} {p : P α} (hp : Sfx p) :
    Sfx (pMany1Count p) := by
  intro cs v r h
  unfold pMany1Count at h
  split at h
  · cases h
  · cases h
  · rename_i a b hpc
    split at h
    · split at h
      · rename_i n rest hrec
        simp only [PRes.ok.injEq] at h
        exact h.2 ▸ (sfx_pMany0Count hp b n rest hrec).trans (hp cs a b hpc)
      · cases h
      · cases h
    · cases h

/-! Suffix and split properties of the grammar parsers, and the substring
decomposition of a successful top-level parse. -/

theorem sfx_identInner : Sfx identInner :=
  sfx_pAlt (sfx_takeWhile1 _) (sfx_tag _)

theorem sfx_quotedElem : Sfx quotedElem :=
  sfx_pAlt (sfx_takeWhile1 _)
    (sfx_pAlt (sfx_tag _) (sfx_pAlt (sfx_tag _) (sfx_tag _)))

theorem sfx_column_inner :
    Sfx (pPair (pAlt alpha1 (tag ['_'])) (pMany0Count identInner)) :=
  sfx_pPair (sfx_pAlt (sfx_takeWhile1 _) (sfx_tag _))
    (sfx_pMany0Count sfx_identInner)

theorem column_name_split {cs m r : List Char}
    (h : column_name cs = .ok m r) : cs = m ++ r :=
  pRecognize_split sfx_column_inner h

theorem opAlt_split {cs m r : List Char} (h : opAlt cs = .ok m r) :
    cs = m ++ r := by
  unfold opAlt at h
  rcases pAlt_cases h with h | ⟨_, h⟩
  · exact tag_split h
  · rcases pAlt_cases h with h | ⟨_, h⟩
    · exact tag_split h
    · rcases pAlt_cases h with h | ⟨_, h⟩
      · exact tag_split h
      · rcases pAlt_cases h with h | ⟨_, h⟩
        · exact tag_split h
        · rcases pAlt_cases h with h | ⟨_, h⟩
          · exact tag_split h
          · rcases pAlt_cases h with h | ⟨_, h⟩
            · exact tag_split h
            · rcases pAlt_cases h with h | ⟨_, h⟩
              · exact tagNoCase_split h
              · exact tagNoCase_split h

theorem opAlt_closed {cs m r : List Char} (h : opAlt cs = .ok m r) :
    m = ['='] ∨ m = ['!', '='] ∨ m = ['>', '='] ∨ m = ['>'] ∨
      m = ['<', '='] ∨ m = ['<'] ∨ m.map Char.toLower = ['i', 'n'] ∨
      m.map Char.toLower = ['n', 'o', 't', ' ', 'i', 'n'] := by
  unfold opAlt at h
  rcases pAlt_cases h with h | ⟨_, h⟩
  · exact .inl (tag_matched h)
  · rcases pAlt_cases h with h | ⟨_, h⟩
    · exact .inr (.inl (tag_matched h))
    · rcases pAlt_cases h with h | ⟨_, h⟩
      · exact .inr (.inr (.inl (tag_matched h)))
      · rcases pAlt_cases h with h | ⟨_, h⟩
        · exact .inr (.inr (.inr (.inl (tag_matched h))))
        · rcases pAlt_cases h with h | ⟨_, h⟩
          · exact .inr (.inr (.inr (.inr (.inl (tag_matched h)))))
          · rcases pAlt_cases h with h | ⟨_, h⟩
            · exact .inr (.inr (.inr (.inr (.inr (.inl (tag_matched h))))))
            · rcases pAlt_cases h with h | ⟨_, h⟩
              · refine .inr (.inr (.inr (.inr (.inr (.inr (.inl ?_))))))
                simpa using tagNoCase_matched h
              · refine .inr (.inr (.inr (.inr (.inr (.inr (.inr ?_))))))
                simpa using tagNoCase_matched h

theorem filter_operator_split {cs m r : List Char}
    (h : filter_operator cs = .ok m r) :
    ∃ a b, cs = a ++ (m ++ (b ++ r)) := by
  unfold filter_operator at h
  unfold pTerminated at h
  split at h
  · rename_i a1 b1 hpre
    split at h
    · rename_i a2 b2 hsp
      simp only [PRes.ok.injEq] at h
      obtain ⟨hm, hr⟩ := h
      subst hm; subst hr
      unfold pPreceded at hpre
      split at hpre
      · rename_i w0 rest0 hsp0
        have e1 := space0_split hsp0
        have e2 := opAlt_split hpre
        have e3 := space0_split hsp
        exact ⟨w0, a2, by rw [e1, e2, e3]⟩
      · cases hpre
      · cases hpre
    · cases h
    · cases h
  · cases h
  · cases h

theorem sfx_floatInner :
    Sfx (pPair (pOpt signP) (pPair floatBody (pOpt floatExp))) := by
  have hsign : Sfx signP := sfx_pAlt (sfx_pChar _) (sfx_pChar _)
  have hbody : Sfx floatBody :=
    sfx_pAlt
      (sfx_pMap (sfx_pPair (sfx_takeWhile1 _)
        (sfx_pOpt (sfx_pPair (sfx_pChar _) (sfx_pOpt (sfx_takeWhile1 _))))))
      (sfx_pMap (sfx_pPair (sfx_pChar _) (sfx_takeWhile1 _)))
  have hexp : Sfx floatExp :=
    sfx_pMap (sfx_pPair (sfx_pAlt (sfx_pChar _) (sfx_pChar _))
      (sfx_pPair (sfx_pOpt hsign) (sfx_pCut (sfx_takeWhile1 _))))
  exact sfx_pPair (sfx_pOpt hsign) (sfx_pPair hbody (sfx_pOpt hexp))

theorem recognizeFloat_split {cs m r : List Char}
    (h : recognizeFloat cs = .ok m r) : cs = m ++ r :=
  pRecognize_split sfx_floatInner h

theorem filter_field_split {cs m r : List Char}
    (h : filter_field cs = .ok m r) : ∃ a b, cs = a ++ (m ++ (b ++ r)) := by
  unfold filter_field at h
  rcases pAlt_cases h with h | ⟨_, h⟩
  · exact ⟨[], [], by simpa using recognizeFloat_split h⟩
  · rcases pAlt_cases h with h | ⟨_, h⟩
    · exact ⟨[], [], by
        simpa using pRecognize_split (sfx_pMany1Count (sfx_oneOf _)) h⟩
    · unfold pDelimited at h
      split at h
      · rename_i a1 b1 hq1
        split at h
        · rename_i a2 b2 hmid
          split at h
          · rename_i a3 b3 hq2
            simp only [PRes.ok.injEq] at h
            obtain ⟨hm, hr⟩ := h
            subst hm; subst hr
            have e1 := pChar_split hq1
            have e2 := pRecognize_split (sfx_pMany1Count sfx_quotedElem) hmid
            have e3 := pChar_split hq2
            exact ⟨[a1], [a3], by rw [e1, e2, e3]; simp⟩
          · cases h
          · cases h
        · cases h
        · cases h
      · cases h
      · cases h

theorem parseTriple_split {input c o l rem : List Char}
    (h : parseTriple input = .ok (c, o, l) rem) :
    ∃ p1 q1 r1 s1, input = p1 ++ c ++ q1 ++ o ++ r1 ++ l ++ s1 := by
  unfold parseTriple at h
  split at h
  · rename_i c0 ra h1
    split at h
    · rename_i o0 rb h2
      split at h
      · rename_i l0 rc h3
        simp only [PRes.ok.injEq, Prod.mk.injEq] at h
        obtain ⟨⟨hc, ho, hl⟩, hrem⟩ := h
        subst hc; subst ho; subst hl
        unfold pPreceded at h1 h2 h3
        split at h1
        · rename_i w0 i0 hs0
          split at h2
          · rename_i w1 i1 hs1
            split at h3
            · rename_i w2 i2 hs2
              have e0 := space0_split hs0
              have e1 := column_name_split h1
              have e2 := space0_split hs1
              obtain ⟨a2, b2, e3⟩ := filter_operator_split h2
              have e4 := space0_split hs2
              obtain ⟨a3, b3, e5⟩ := filter_field_split h3
              refine ⟨w0, w1 ++ a2, b2 ++ (w2 ++ a3), b3 ++ rc, ?_⟩
              rw [e0, e1, e2, e3, e4, e5]
              simp [List.append_assoc]
            · cases h3
            · cases h3
          · cases h2
          · cases h2
        · cases h1
        · cases h1
      · cases h
      · cases h
    · cases h
    · cases h
  · cases h
  · cases h

theorem filter_condition_substring {input c o l : List Char}
    (h : filter_condition input = .ok (c, o, l)) :
    ∃ p1 q1 r1 s1, input = p1 ++ c ++ q1 ++ o ++ r1 ++ l ++ s1 := by
  unfold filter_condition at h
  split at h
  · rename_i v rem htrip
    simp only [Except.ok.injEq] at h
    subst h
    exact parseTriple_split htrip
  · cases h
  · cases h

/-! Behaviour of the entry point: error collapse, acceptance of trailing
input, and totality. -/

theorem filter_condition_of_triple {input rem : List Char}
    {v : List Char × List Char × List Char}
    (h : parseTriple input = .ok v rem) : filter_condition input = .ok v := by
  rw [filter_condition, h]

theorem filter_condition_error_msg {input e : List Char}
    (h : filter_condition input = .error e) : e = errMsg input := by
  unfold filter_condition at h
  split at h
  · cases h
  · simp only [Except.error.injEq] at h
    exact h.symm
  · simp only [Except.error.injEq] at h
    exact h.symm

theorem filter_condition_total (input : List Char) :
    (∃ v, filter_condition input = .ok v) ∨
      filter_condition input = .error (errMsg input) := by
  cases h : parseTriple input with
  | ok v r => exact Or.inl ⟨v, by rw [filter_condition, h]⟩
  | err => exact Or.inr (by rw [filter_condition, h])
  | fail => exact Or.inr (by rw [filter_condition, h])

theorem filter_condition_error_iff (input : List Char) :
    filter_condition input = .error (errMsg input) ↔
      ((∀ c r, pPreceded space0 column_name input ≠ .ok c r) ∨
       (∃ c r1, pPreceded space0 column_name input = .ok c r1 ∧
         ∀ o r, pPreceded space0 filter_operator r1 ≠ .ok o r) ∨
       (∃ c r1 o r2, pPreceded space0 column_name input = .ok c r1 ∧
         pPreceded space0 filter_operator r1 = .ok o r2 ∧
         ∀ l r, pPreceded space0 filter_field r2 ≠ .ok l r)) := by
  constructor
  · intro h
    cases h1 : pPreceded space0 column_name input with
    | ok cc r1 =>
      cases h2 : pPreceded space0 filter_operator r1 with
      | ok oo r2 =>
        cases h3 : pPreceded space0 filter_field r2 with
        | ok ll r3 =>
          exfalso
          have hok : filter_condition input = .ok (cc, oo, ll) := by
            have htr : parseTriple input = .ok (cc, oo, ll) r3 := by
              simp only [parseTriple, h1, h2, h3]
            exact filter_condition_of_triple htr
          rw [hok] at h
          cases h
        | err =>
          refine Or.inr (Or.inr ⟨cc, r1, oo, r2, rfl, h2, ?_⟩)
          intro l r hlr
          cases h3.symm.trans hlr
        | fail =>
          refine Or.inr (Or.inr ⟨cc, r1, oo, r2, rfl, h2, ?_⟩)
          intro l r hlr
          cases h3.symm.trans hlr
      | err =>
        refine Or.inr (Or.inl ⟨cc, r1, rfl, ?_⟩)
        intro o r hor
        cases h2.symm.trans hor
      | fail =>
        refine Or.inr (Or.inl ⟨cc, r1, rfl, ?_⟩)
        intro o r hor
        cases h2.symm.trans hor
    | err =>
      refine Or.inl ?_
      intro c r hcr
      cases hcr
    | fail =>
      refine Or.inl ?_
      intro c r hcr
      cases hcr
  · intro h
    rcases h with h | ⟨c, r1, h1, h2⟩ | ⟨c, r1, o, r2, h1, h2, h3⟩
    · cases hs : pPreceded space0 column_name input with
      | ok cc rr => exact absurd hs (h cc rr)
      | err => simp only [filter_condition, parseTriple, hs]
      | fail => simp only [filter_condition, parseTriple, hs]
    · cases hs : pPreceded space0 filter_operator r1 with
      | ok oo rr => exact absurd hs (h2 oo rr)
      | err => simp only [filter_condition, parseTriple, h1, hs]
      | fail => simp only [filter_condition, parseTriple, h1, hs]
    · cases hs : pPreceded space0 filter_field r2 with
      | ok ll rr => exact absurd hs (h3 ll rr)
      | err => simp only [filter_condition, parseTriple, h1, h2, hs]
      | fail => simp only [filter_condition, parseTriple, h1, h2, hs]

/-! Progress: the inner alternatives of the repetitions consume at least one
character whenever they succeed. -/

theorem tag_progress {t cs m r : List Char} (hne : t ≠ [])
    (h : tag t cs = .ok m r) : r.length < cs.length := by
  have hm := tag_matched h
  have hs := tag_split h
  have hlen : cs.length = m.length + r.length := by rw [hs, List.length_append]
  have hmne : m ≠ [] := by rw [hm]; exact hne
  have : 0 < m.length := List.length_pos.mpr hmne
  omega

theorem identInner_progress (cs m r : List Char)
    (h : identInner cs = .ok m r) : r.length < cs.length := by
  rcases pAlt_cases h with h | ⟨_, h⟩
  · exact takeWhile1_progress h
  · exact tag_progress (by simp) h

theorem quotedElem_progress (cs m r : List Char)
    (h : quotedElem cs = .ok m r) : r.length < cs.length := by
  rcases pAlt_cases h with h | ⟨_, h⟩
  · exact takeWhile1_progress h
  · rcases pAlt_cases h with h | ⟨_, h⟩
    · exact tag_progress (by simp) h
    · rcases pAlt_cases h with h | ⟨_, h⟩
      · exact tag_progress (by simp) h
      · exact tag_progress (by simp) h

theorem oneOf_progress (s cs : List Char) (v : Char) (r : List Char)
    (h : oneOf s cs = .ok v r) : r.length < cs.length := by
  have := oneOf_split h
  rw [this]
  simp

/-! Claim theorems. -/

/-- C1, counterexample: the claim as stated is false for the word operators
with zero surrounding whitespace.  The input built from column x, operator
in, literal 5 with no whitespace around the operator is a claimed-covered
instance (the shape hypotheses hold), yet filter_condition rejects it,
because the column matcher greedily consumes the letters of the operator. -/
theorem claim_C1_counterexample :
    isIdentB ("x".toList) = true ∧ ("in".toList) ∈ canonOps ∧
    isSpecLit ("5".toList) = true ∧
    filter_condition ("x".toList ++ "in".toList ++ "5".toList) =
      .error (errMsg ("x".toList ++ "in".toList ++ "5".toList)) :=
  ⟨by decide, by decide, by decide, by rfl⟩

/-- C1, amended: for every input of the form col ++ ws1 ++ op ++ ws2 ++ lit
where col matches the identifier grammar, op is one of the eight canonical
operator tokens, lit matches one of the three literal shapes, and ws1, ws2
are arbitrary (possibly empty) runs of spaces and tabs, filter_condition
succeeds and returns (col, op, lit) — except that (a) for the word
operators in and not in at least one whitespace character must precede the
operator, and (b) a quoted literal is returned with its delimiting quotes
stripped. -/
theorem claim_C1_amended (col op lit ws1 ws2 : List Char)
    (hcol : isIdentB col = true) (hop : op ∈ canonOps)
    (hlit : isSpecLit lit = true)
    (hws1 : ∀ c ∈ ws1, isSpaceTab c = true)
    (hws2 : ∀ c ∈ ws2, isSpaceTab c = true)
    (hword : op = ['i', 'n'] ∨ op = ['n', 'o', 't', ' ', 'i', 'n'] →
      ws1 ≠ []) :
    filter_condition (col ++ ws1 ++ op ++ ws2 ++ lit) =
      .ok (col, op, litValue lit) :=
  filter_condition_wellformed hcol hop hlit hws1 hws2 hword

/-- C1, witness: the amended theorem applied to the concrete input
x in 5 (column x, operator in, one space on each side, literal 5). -/
theorem claim_C1_witness :
    filter_condition ("x".toList ++ " ".toList ++ "in".toList ++
        " ".toList ++ "5".toList) =
      .ok ("x".toList, "in".toList, litValue ("5".toList)) :=
  claim_C1_amended ("x".toList) ("in".toList) ("5".toList) (" ".toList)
    (" ".toList) (by decide) (by decide) (by decide) (by decide) (by decide)
    (by decide)

/-- C2: the delimited quoted-string branch of filter_field discards the
surrounding single quotes, so filter_condition on d = '2021-01-01' returns
the literal 2021-01-01 without quotes, and filter_field on 'some_string'
returns some_string — contradicting the repository's own test
test_filter_field_isolated, which asserts the matched field equals the
original text including its quotes. -/
theorem claim_C2_quote_stripped :
    filter_condition ("d = '2021-01-01'".toList) =
      .ok ("d".toList, "=".toList, "2021-01-01".toList) ∧
    filter_field ("'some_string'".toList) =
      .ok ("some_string".toList) [] :=
  ⟨by rfl, by rfl⟩

/-- C3: filter_condition fails exactly when one of the three staged
sub-parsers (column name, operator, literal) fails at its position in the
sequence, every error it ever returns is the single opaque message
invalid partition filter: followed by the original input, and the inputs
status in (missing literal) and 1col > 5 (identifier starting with a
digit) both produce that error. -/
theorem claim_C3_error_opaque :
    (∀ input e, filter_condition input = .error e → e = errMsg input) ∧
    (∀ input, filter_condition input = .error (errMsg input) ↔
      ((∀ c r, pPreceded space0 column_name input ≠ .ok c r) ∨
       (∃ c r1, pPreceded space0 column_name input = .ok c r1 ∧
         ∀ o r, pPreceded space0 filter_operator r1 ≠ .ok o r) ∨
       (∃ c r1 o r2, pPreceded space0 column_name input = .ok c r1 ∧
         pPreceded space0 filter_operator r1 = .ok o r2 ∧
         ∀ l r, pPreceded space0 filter_field r2 ≠ .ok l r))) ∧
    filter_condition ("status in".toList) =
      .error (errMsg ("status in".toList)) ∧
    filter_condition ("1col > 5".toList) =
      .error (errMsg ("1col > 5".toList)) :=
  ⟨fun _ _ h => filter_condition_error_msg h, filter_condition_error_iff,
    by rfl, by rfl⟩

/-- C3, witness: the error-message part applied to the concrete failing
input status in, showing the message is exactly the expected text. -/
theorem claim_C3_witness :
    ("invalid partition filter: status in".toList) =
      errMsg ("status in".toList) :=
  claim_C3_error_opaque.1 ("status in".toList)
    ("invalid partition filter: status in".toList) (by rfl)

/-- C4: the operator matcher only ever returns tokens of the closed set
(the six symbolic operators exactly, and in / not in up to ASCII case),
the two-character operator >= wins over its prefix > so id >= 200 parses
to (id, >=, 200), and an operator text outside the set such as ~ makes the
whole parse fail with the single error. -/
theorem claim_C4_operator_order :
    (∀ cs m r, opAlt cs = .ok m r →
      m = ['='] ∨ m = ['!', '='] ∨ m = ['>', '='] ∨ m = ['>'] ∨
        m = ['<', '='] ∨ m = ['<'] ∨ m.map Char.toLower = ['i', 'n'] ∨
        m.map Char.toLower = ['n', 'o', 't', ' ', 'i', 'n']) ∧
    filter_condition ("id >= 200".toList) =
      .ok ("id".toList, ">=".toList, "200".toList) ∧
    filter_operator (">= 200".toList) = .ok (">=".toList) ("200".toList) ∧
    filter_condition ("id ~ 5".toList) = .error (errMsg ("id ~ 5".toList)) :=
  ⟨fun _ _ _ h => opAlt_closed h, by rfl, by rfl, by rfl⟩

/-- C4, witness: the closed-set part applied to the concrete input
NoT iN 5, whose matched operator token lowercases to not in. -/
theorem claim_C4_witness :
    "NoT iN".toList = ['='] ∨ "NoT iN".toList = ['!', '='] ∨
      "NoT iN".toList = ['>', '='] ∨ "NoT iN".toList = ['>'] ∨
      "NoT iN".toList = ['<', '='] ∨ "NoT iN".toList = ['<'] ∨
      ("NoT iN".toList).map Char.toLower = ['i', 'n'] ∨
      ("NoT iN".toList).map Char.toLower = ['n', 'o', 't', ' ', 'i', 'n'] :=
  claim_C4_operator_order.1 ("NoT iN 5".toList) ("NoT iN".toList)
    (" 5".toList) (by rfl)

/-- C5: the literal matcher tries the float recognizer before the integer
recognizer, so price <= 19.99 parses with the single float token 19.99;
the integer branch alone would have stopped at 19 leaving .99 unconsumed,
as the third conjunct shows. -/
theorem claim_C5_float_before_int :
    filter_condition ("price <= 19.99".toList) =
      .ok ("price".toList, "<=".toList, "19.99".toList) ∧
    recognizeFloat ("19.99".toList) = .ok ("19.99".toList) [] ∧
    pRecognize (pMany1Count (oneOf digitChars)) ("19.99".toList) =
      .ok ("19".toList) (".99".toList) ∧
    filter_field ("19.99".toList) = .ok ("19.99".toList) [] :=
  ⟨by rfl, by rfl, by rfl, by rfl⟩

/-- C6: the entry point does not require full consumption: whenever the
sequenced triple parser succeeds on a prefix of the input, filter_condition
returns that triple unchanged, whatever unconsumed characters remain; in
particular id > 200 junk succeeds with (id, >, 200). -/
theorem claim_C6_trailing_ignored :
    (∀ input v rem, parseTriple input = .ok v rem →
      filter_condition input = .ok v) ∧
    parseTriple ("id > 200 junk".toList) =
      .ok ("id".toList, ">".toList, "200".toList) (" junk".toList) ∧
    filter_condition ("id > 200 junk".toList) =
      .ok ("id".toList, ">".toList, "200".toList) :=
  ⟨fun _ _ _ h => filter_condition_of_triple h, by rfl, by rfl⟩

/-- C6, witness: the general part applied to the concrete input a = 1 %%,
whose triple parse leaves the unconsumed suffix of percent signs. -/
theorem claim_C6_witness :
    filter_condition ("a = 1 %%".toList) =
      .ok ("a".toList, "=".toList, "1".toList) :=
  claim_C6_trailing_ignored.1 ("a = 1 %%".toList)
    ("a".toList, "=".toList, "1".toList) (" %%".toList) (by rfl)

/-- C7: round-trip idempotence fails on the code.  Parsing d = 'a'
succeeds with the triple (d, =, a) — the quotes are stripped — but
re-parsing the single-space-separated reformatting d = a fails entirely,
because a bare word is not one of the literal shapes.  Under the
quote-preserving behaviour asserted by the repository's own test the
reformatted string would reparse to the same triple. -/
theorem claim_C7_roundtrip_fails :
    filter_condition ("d = 'a'".toList) =
      .ok ("d".toList, "=".toList, "a".toList) ∧
    filter_condition ("d = a".toList) = .error (errMsg ("d = a".toList)) :=
  ⟨by rfl, by rfl⟩

/-- C8, counterexample: the claim as stated is false — a sign followed by
bare digits IS accepted, because nom's recognize_float does not require a
fractional part or exponent, so x > -5 parses successfully to (x, >, -5)
instead of failing. -/
theorem claim_C8_counterexample :
    filter_condition ("x > -5".toList) =
      .ok ("x".toList, ">".toList, "-5".toList) := by rfl

/-- C8, amended: a literal consisting of a sign character followed only by
decimal digits is matched by the float recognizer (whose fractional part
and exponent are optional), so such literals are accepted by filter_field,
and x > -5 succeeds with (x, >, -5). -/
theorem claim_C8_amended :
    (∀ sg ds, (sg = '+' ∨ sg = '-') → ds ≠ [] →
      (∀ c ∈ ds, c.isDigit = true) →
      filter_field (sg :: ds) = .ok (sg :: ds) []) ∧
    filter_condition ("x > -5".toList) =
      .ok ("x".toList, ">".toList, "-5".toList) := by
  constructor
  · intro sg ds hsg hne hall
    have h1 : recognizeFloat ([sg] ++ ds ++ []) = .ok ([sg] ++ ds ++ []) [] :=
      recognizeFloat_run
        (by rcases hsg with h | h <;> subst h <;> simp) hne hall (Or.inl rfl)
    have h2 : recognizeFloat (sg :: ds) = .ok (sg :: ds) [] := by
      simpa using h1
    rw [filter_field]
    exact pAlt_ok h2
  · rfl

/-- C8, witness: the amended theorem applied to the concrete literal -5. -/
theorem claim_C8_witness :
    filter_field ('-' :: ['5']) = .ok ('-' :: ['5']) [] :=
  claim_C8_amended.1 '-' ['5'] (Or.inr rfl) (by decide) (by decide)

/-- C9: filter_condition is total — on every input it returns either a
triple or the single error — and each inner alternative of the repetition
combinators (the identifier continuation, the quoted-string element, the
digit) consumes at least one character whenever it succeeds, which is what
rules out unbounded iteration. -/
theorem claim_C9_terminates :
    (∀ input, (∃ v, filter_condition input = .ok v) ∨
      filter_condition input = .error (errMsg input)) ∧
    (∀ cs m r, identInner cs = .ok m r → r.length < cs.length) ∧
    (∀ cs m r, quotedElem cs = .ok m r → r.length < cs.length) ∧
    (∀ cs v r, oneOf digitChars cs = .ok v r → r.length < cs.length) :=
  ⟨filter_condition_total, identInner_progress, quotedElem_progress,
    fun cs v r h => oneOf_progress _ cs v r h⟩

/-- C9, witness: the identifier-continuation progress part applied to the
concrete input a b, whose first step consumes the letter a. -/
theorem claim_C9_witness : (" b".toList).length < ("a b".toList).length :=
  claim_C9_terminates.2.1 ("a b".toList) ("a".toList) (" b".toList) (by rfl)

/-- C10: on every successful parse each returned component occurs verbatim
as a contiguous substring of the input, the three occurrences are
non-overlapping and ordered column before operator before literal; and no
re-casing happens — x IN 5 returns the operator IN exactly as written. -/
theorem claim_C10_substring :
    (∀ input c o l, filter_condition input = .ok (c, o, l) →
      ∃ p1 q1 r1 s1, input = p1 ++ c ++ q1 ++ o ++ r1 ++ l ++ s1) ∧
    filter_condition ("x IN 5".toList) =
      .ok ("x".toList, "IN".toList, "5".toList) :=
  ⟨fun _ _ _ _ h => filter_condition_substring h, by rfl⟩

/-- C10, witness: the decomposition part applied to the concrete input
id>5, which parses with zero whitespace. -/
theorem claim_C10_witness :
    ∃ p1 q1 r1 s1, "id>5".toList =
      p1 ++ "id".toList ++ q1 ++ ">".toList ++ r1 ++ "5".toList ++ s1 :=
  claim_C10_substring.1 ("id>5".toList) ("id".toList) (">".toList)
    ("5".toList) (by rfl)

end Deltactl
